import Mathlib

/-!
# Verification of the Pathfinder (paf) service-discovery server core

This file gives a shallow embedding, in Lean 4, of the core data
structures and operations of the `paf` service-discovery server:

* `paf/timer.py` — the timer wheel (`TimerManager`): a deque kept
  sorted by expiration time, with binary-search insertion;
* `paf/filter.py` — the subscription filter language: parser,
  printer, and evaluator;
* `paf/sd.py` — the resource accountant (`ResourceManager`), the
  service-discovery entity graph (`Client`, `Connection`, `Service`,
  `ServiceDiscovery`) with the publish / unpublish / disconnect /
  orphan lifecycle, and the per-connection idle state machine;
* `paf/server.py` — the request handlers wrapping the engine
  (`hello_request`, `publish_request`) and the server-side idle
  callback (`client_idle`, `check_idle`).

Machine integers in the source are Python arbitrary-precision
integers; ids, times and generations are modelled as `Nat` (they are
checked non-negative at the protocol layer), filter comparison values
as `Int` (Python `int(...)` of a string can be negative).

Timestamps (`time.time()`) are modelled as `Nat` parameters supplied
by the environment.
-/

namespace Paf

/-! ## Timer wheel (`paf/timer.py`, class `TimerManager`)

A `Timer` is the namedtuple `Timer(handler, expiration_time)`.  The
handler (a Python closure) is modelled by an opaque numeric token:
the service-discovery layer allocates a fresh token per timer, which
also mirrors the fact that distinct Python closure objects are
distinct.  The deque is a `List Timer`, front first. -/

/-- `Timer = collections.namedtuple("Timer", "handler expiration_time")`:
the handler is an opaque token (`.1`), the expiration time is `.2`. -/
abbrev Timer := Nat × Nat

/-- Expiration time of a timer (field `expiration_time`). -/
def Timer.expTime (t : Timer) : Nat := t.2

/-- The binary-search loop inside `TimerManager._allocate_idx`
(`paf/timer.py` lines 84-98), operating on the list of expiration
times.  `low`/`high` bracket the search; the loop computes
`idx = (low + high) // 2`, stops when `high - low <= 1` or on an
exact match, and finally bumps `idx` past a smaller element. -/
def allocLoopGo (es : List Nat) (t : Nat) : Nat → Nat → Nat → Nat
  | fuel, low, high =>
    let idx := (low + high) / 2
    if high - low ≤ 1 then
      if t > es.getD idx 0 then idx + 1 else idx
    else
      match fuel with
      | 0 => idx -- never reached: `high - low` shrinks by ≥ 1 per round
      | fuel + 1 =>
        if t > es.getD idx 0 then
          allocLoopGo es t fuel (idx + 1) high
        else if t < es.getD idx 0 then
          allocLoopGo es t fuel low idx
        else
          idx

/-- The loop of `_allocate_idx`, started with enough fuel: the
bracket `high - low` shrinks on every iteration, so `high - low`
rounds always suffice. -/
def allocLoop (es : List Nat) (t : Nat) (low high : Nat) : Nat :=
  allocLoopGo es t (high - low) low high

/-- `TimerManager._allocate_idx(expiration_time)`: insertion index
for a new timer.  The empty deque gives index 0; an expiration later
than the current last entry appends (the fast path); otherwise the
binary-search loop runs. -/
def allocIdx (es : List Nat) (t : Nat) : Nat :=
  if es.length = 0 then 0
  else if t > es.getD (es.length - 1) 0 then es.length
  else allocLoop es t 0 es.length

/-- `TimerManager.add(handler, expiration_time)` (absolute form; the
`relative=True` variant only adds `time.time()` to the expiration
before insertion): insert the new timer at `_allocate_idx`. -/
def twAdd (l : List Timer) (tm : Timer) : List Timer :=
  l.insertIdx (allocIdx (l.map Timer.expTime) tm.expTime) tm

/-- `TimerManager.remove(timer)`.  `deque[0]` raises `IndexError` on
an empty deque, and `deque.remove` raises `ValueError` when the
timer is not present; both are modelled by `none`.  When the timer
is pending, the first occurrence is removed (the `is`-check on the
front element and `deque.remove` agree on that). -/
def twRemove (l : List Timer) (tm : Timer) : Option (List Timer) :=
  if tm ∈ l then some (l.erase tm) else none

/-- `TimerManager.next_timeout()`: the front entry's expiration, or
`None` when the deque is empty. -/
def twNextTimeout (l : List Timer) : Option Nat :=
  l.head?.map Timer.expTime

/-- `TimerManager.process()` at time `now`: repeatedly pop the front
entry while its expiration is `≤ now` (the loop breaks on
`now < candidate.expiration_time`), invoking each popped handler.
Returns the fired entries, in pop order, and the remaining deque. -/
def twProcess (now : Nat) (l : List Timer) : List Timer × List Timer :=
  (l.takeWhile (fun tm => tm.expTime ≤ now),
   l.dropWhile (fun tm => tm.expTime ≤ now))

/-- Deque states reachable by the `TimerManager` interface: start
empty; `add` any timer; `remove` a pending timer (removing a
non-pending one raises and leaves the deque unchanged); `process`
leaves the not-yet-due suffix. -/
inductive TWReach : List Timer → Prop where
  | init : TWReach []
  | add (tm : Timer) {l : List Timer} : TWReach l → TWReach (twAdd l tm)
  | remove (tm : Timer) {l : List Timer} (hmem : tm ∈ l) :
      TWReach l → TWReach (l.erase tm)
  | fire (now : Nat) {l : List Timer} : TWReach l → TWReach (twProcess now l).2

/-- Sortedness (non-strict, by expiration time) of the deque. -/
def TWSorted (l : List Timer) : Prop :=
  l.Sorted (fun a b => a.expTime ≤ b.expTime)

theorem allocLoopGo_spec (es : List Nat) (t : Nat)
    (hs : es.Sorted (· ≤ ·)) (fuel low high : Nat)
    (hfuel : high - low ≤ fuel + 1)
    (hlh : low ≤ high) (hhigh : high ≤ es.length)
    (hll : low = high → high < es.length)
    (hlast : high = es.length →
      t ≤ es.getD (es.length - 1) 0 ∧ 0 < es.length)
    (hlo : ∀ j, j < low → es.getD j 0 < t)
    (hhi : ∀ j, high ≤ j → j < es.length → t ≤ es.getD j 0) :
    (∀ j, j < allocLoopGo es t fuel low high → es.getD j 0 ≤ t) ∧
    (∀ j, allocLoopGo es t fuel low high ≤ j → j < es.length →
      t ≤ es.getD j 0) ∧
    allocLoopGo es t fuel low high ≤ es.length := by
  have hmono : ∀ i j, i ≤ j → j < es.length → es.getD i 0 ≤ es.getD j 0 := by
    intro i j hij hj
    rcases Nat.eq_or_lt_of_le hij with h | h
    · subst h; exact le_refl _
    · have := List.pairwise_iff_getElem.mp hs i j (lt_trans h hj) hj h
      simpa [List.getD_eq_getElem?_getD, List.getElem?_eq_getElem,
        lt_trans h hj, hj] using this
  unfold allocLoopGo
  by_cases hbr : high - low ≤ 1
  · simp only [hbr, if_true]
    rcases Nat.eq_or_lt_of_le hlh with hlheq | hlhlt
    · -- low = high: the index probed is low itself, and `hhi` rules
      -- out bumping past it
      have hlen : high < es.length := hll hlheq
      have hidx : (low + high) / 2 = high := by omega
      have hnotgt : ¬ t > es.getD high 0 :=
        not_lt.mpr (hhi high (le_refl _) hlen)
      simp only [hidx, hnotgt, if_false]
      refine ⟨?_, ?_, le_of_lt hlen⟩
      · intro j hj
        exact le_of_lt (hlo j (by omega))
      · intro j hj hjlen
        exact hhi j hj hjlen
    · -- low + 1 = high: the index probed is low
      have hhl : high = low + 1 := by omega
      have hidx : (low + high) / 2 = low := by omega
      simp only [hidx]
      by_cases hgt : t > es.getD low 0
      · simp only [hgt, if_true]
        refine ⟨?_, ?_, by omega⟩
        · intro j hj
          rcases Nat.lt_or_ge j low with h | h
          · exact le_of_lt (hlo j h)
          · have : j = low := by omega
            subst this; exact le_of_lt hgt
        · intro j hj hjlen
          exact hhi j (by omega) hjlen
      · simp only [hgt, if_false]
        push_neg at hgt
        refine ⟨?_, ?_, by omega⟩
        · intro j hj; exact le_of_lt (hlo j hj)
        · intro j hj hjlen
          rcases Nat.eq_or_lt_of_le hj with h | h
          · rw [← h]; exact hgt
          · exact hhi j (by omega) hjlen
  · have hidxlt : (low + high) / 2 < high := by omega
    have hidxge : low < (low + high) / 2 := by omega
    have hidxlen : (low + high) / 2 < es.length := lt_of_lt_of_le hidxlt hhigh
    simp only [hbr, if_false]
    cases fuel with
    | zero => omega
    | succ f =>
    simp only []
    by_cases hgt : t > es.getD ((low + high) / 2) 0
    · simp only [hgt, if_true]
      exact allocLoopGo_spec es t hs f ((low + high) / 2 + 1) high
        (by omega) (by omega) hhigh
        (by
          -- low = high after the bump forces high < length: otherwise
          -- the probed element is the last one, contradicting `hlast`
          intro heq
          rcases Nat.eq_or_lt_of_le hhigh with hh | hh
          · exfalso
            have hl := hlast hh
            have h3 : (low + high) / 2 = es.length - 1 := by omega
            rw [h3] at hgt
            omega
          · exact hh)
        hlast
        (by
          intro j hj
          calc es.getD j 0 ≤ es.getD ((low + high) / 2) 0 :=
                hmono j _ (by omega) hidxlen
            _ < t := hgt)
        hhi
    · simp only [hgt, if_false]
      by_cases hlt : t < es.getD ((low + high) / 2) 0
      · simp only [hlt, if_true]
        exact allocLoopGo_spec es t hs f low ((low + high) / 2)
          (by omega) (by omega) (le_of_lt hidxlen)
          (by intro heq; omega)
          (by intro heq; omega)
          hlo
          (by
            intro j hj hjlen
            calc t ≤ es.getD ((low + high) / 2) 0 := le_of_lt hlt
              _ ≤ es.getD j 0 := hmono _ j hj hjlen)
      · simp only [hlt, if_false]
        push_neg at hgt hlt
        have heq : es.getD ((low + high) / 2) 0 = t := le_antisymm hlt hgt
        refine ⟨?_, ?_, le_of_lt hidxlen⟩
        · intro j hj
          calc es.getD j 0 ≤ es.getD ((low + high) / 2) 0 :=
                hmono j _ (by omega) hidxlen
            _ = t := heq
        · intro j hj hjlen
          calc t = es.getD ((low + high) / 2) 0 := heq.symm
            _ ≤ es.getD j 0 := hmono _ j hj hjlen

theorem allocLoop_spec (es : List Nat) (t : Nat)
    (hs : es.Sorted (· ≤ ·)) (low high : Nat)
    (hlh : low ≤ high) (hhigh : high ≤ es.length)
    (hll : low = high → high < es.length)
    (hlast : high = es.length →
      t ≤ es.getD (es.length - 1) 0 ∧ 0 < es.length)
    (hlo : ∀ j, j < low → es.getD j 0 < t)
    (hhi : ∀ j, high ≤ j → j < es.length → t ≤ es.getD j 0) :
    (∀ j, j < allocLoop es t low high → es.getD j 0 ≤ t) ∧
    (∀ j, allocLoop es t low high ≤ j → j < es.length → t ≤ es.getD j 0) ∧
    allocLoop es t low high ≤ es.length :=
  allocLoopGo_spec es t hs (high - low) low high (by omega) hlh hhigh
    hll hlast hlo hhi

theorem allocIdx_spec (es : List Nat) (t : Nat) (hs : es.Sorted (· ≤ ·)) :
    (∀ j, j < allocIdx es t → es.getD j 0 ≤ t) ∧
    (∀ j, allocIdx es t ≤ j → j < es.length → t ≤ es.getD j 0) ∧
    allocIdx es t ≤ es.length := by
  have hmono : ∀ i j, i ≤ j → j < es.length → es.getD i 0 ≤ es.getD j 0 := by
    intro i j hij hj
    rcases Nat.eq_or_lt_of_le hij with h | h
    · subst h; exact le_refl _
    · have := List.pairwise_iff_getElem.mp hs i j (lt_trans h hj) hj h
      simpa [List.getD_eq_getElem?_getD, List.getElem?_eq_getElem,
        lt_trans h hj, hj] using this
  unfold allocIdx
  by_cases hemp : es.length = 0
  · simp only [hemp, if_true]
    exact ⟨by omega, by omega, by omega⟩
  · simp only [hemp, if_false]
    by_cases hlast : t > es.getD (es.length - 1) 0
    · simp only [hlast, if_true]
      refine ⟨?_, by omega, le_refl _⟩
      intro j hj
      calc es.getD j 0 ≤ es.getD (es.length - 1) 0 :=
            hmono j _ (by omega) (by omega)
        _ ≤ t := le_of_lt hlast
    · simp only [hlast, if_false]
      push_neg at hlast
      exact allocLoop_spec es t hs 0 es.length (by omega) (le_refl _)
        (by omega)
        (by intro _; exact ⟨hlast, by omega⟩)
        (by omega)
        (by intro j hj hjlen; omega)

theorem insertIdx_eq_take_cons_drop {α : Type} (n : Nat) (x : α)
    (l : List α) (h : n ≤ l.length) :
    l.insertIdx n x = l.take n ++ x :: l.drop n := by
  induction l generalizing n with
  | nil =>
    have : n = 0 := by simpa using h
    subst this; rfl
  | cons a as ih =>
    cases n with
    | zero => rfl
    | succ m =>
      simp only [List.insertIdx_succ_cons, List.take_succ_cons,
        List.drop_succ_cons, List.cons_append]
      rw [ih m (by simpa using h)]

theorem exists_idx_of_mem_take {α : Type} {l : List α} {n : Nat} {a : α}
    (h : a ∈ l.take n) :
    ∃ j, ∃ hj : j < l.length, j < n ∧ l[j] = a := by
  obtain ⟨i, hi, he⟩ := List.mem_iff_getElem.mp h
  have hlen : i < l.length := by
    simp only [List.length_take] at hi; omega
  refine ⟨i, hlen, ?_, ?_⟩
  · simp only [List.length_take] at hi; omega
  · rw [← he]; exact (List.getElem_take l).symm

theorem exists_idx_of_mem_drop {α : Type} {l : List α} {n : Nat} {a : α}
    (h : a ∈ l.drop n) :
    ∃ j, ∃ hj : j < l.length, n ≤ j ∧ l[j] = a := by
  obtain ⟨i, hi, he⟩ := List.mem_iff_getElem.mp h
  have hlen : n + i < l.length := by
    simp only [List.length_drop] at hi; omega
  refine ⟨n + i, hlen, by omega, ?_⟩
  rw [← he]; exact (List.getElem_drop l).symm

/-- Inserting at the index computed by `_allocate_idx` keeps the
deque sorted by expiration time: the correctness of `add`. -/
theorem twAdd_sorted (l : List Timer) (tm : Timer) (hs : TWSorted l) :
    TWSorted (twAdd l tm) := by
  have hes : (l.map Timer.expTime).Sorted (· ≤ ·) := by
    exact List.Pairwise.map _ (fun a b h => h) hs
  obtain ⟨h1, h2, h3⟩ := allocIdx_spec (l.map Timer.expTime) tm.expTime hes
  set i := allocIdx (l.map Timer.expTime) tm.expTime with hi
  have hilen : i ≤ l.length := by simpa using h3
  have hget : ∀ j (hj : j < l.length),
      (l.map Timer.expTime).getD j 0 = (l[j]).expTime := by
    intro j hj
    rw [List.getD_eq_getElem?_getD]
    rw [List.getElem?_eq_getElem (by simpa using hj)]
    simp
  have hbefore : ∀ j (hj : j < l.length), j < i → (l[j]).expTime ≤ tm.expTime := by
    intro j hj hji
    have := h1 j (by simpa using hji)
    rwa [hget j hj] at this
  have hafter : ∀ j (hj : j < l.length), i ≤ j → tm.expTime ≤ (l[j]).expTime := by
    intro j hj hij
    have := h2 j hij (by simpa using hj)
    rwa [hget j hj] at this
  unfold twAdd
  rw [← hi, insertIdx_eq_take_cons_drop i tm l hilen]
  unfold TWSorted List.Sorted
  rw [List.pairwise_append]
  refine ⟨hs.sublist (List.take_sublist i l), ?_, ?_⟩
  · rw [List.pairwise_cons]
    constructor
    · intro b hb
      obtain ⟨j, hj, hji, he⟩ := exists_idx_of_mem_drop hb
      rw [← he]
      exact hafter j hj (by omega)
    · exact hs.sublist (List.drop_sublist i l)
  · intro a ha b hb
    obtain ⟨j, hj, hji, he⟩ := exists_idx_of_mem_take ha
    rcases List.mem_cons.mp hb with rfl | hb
    · rw [← he]; exact hbefore j hj hji
    · obtain ⟨k, hk, hki, hek⟩ := exists_idx_of_mem_drop hb
      rw [← he, ← hek]
      have hjk : j < k := by omega
      exact List.pairwise_iff_getElem.mp hs j k hj hk hjk

/-- Removing any element keeps the deque sorted. -/
theorem erase_sorted (l : List Timer) (tm : Timer) (hs : TWSorted l) :
    TWSorted (l.erase tm) :=
  hs.sublist (l.erase_sublist tm)

/-- The remainder left by `process` keeps the deque sorted. -/
theorem twProcess_sorted (now : Nat) (l : List Timer) (hs : TWSorted l) :
    TWSorted (twProcess now l).2 :=
  hs.sublist (List.dropWhile_sublist _)

/-- Every deque reachable through the `TimerManager` interface is
sorted by expiration time. -/
theorem twReach_sorted {l : List Timer} (h : TWReach l) : TWSorted l := by
  induction h with
  | init => exact List.sorted_nil
  | add tm _ ih => exact twAdd_sorted _ tm ih
  | remove tm hmem _ ih => exact erase_sorted _ tm ih
  | fire now _ ih => exact twProcess_sorted now _ ih

theorem sorted_takeWhile_eq_filter (now : Nat) :
    ∀ (l : List Timer), TWSorted l →
      l.takeWhile (fun tm => tm.expTime ≤ now) =
        l.filter (fun tm => tm.expTime ≤ now) := by
  intro l hs
  induction l with
  | nil => rfl
  | cons a as ih =>
    obtain ⟨hhead, htail⟩ := List.sorted_cons.mp hs
    by_cases ha : a.expTime ≤ now
    · simp only [List.takeWhile_cons, List.filter_cons, ha]
      simp only [decide_eq_true_eq] at *
      simp [ha, ih htail]
    · simp only [List.takeWhile_cons, List.filter_cons, ha]
      rw [if_neg (by simp), if_neg (by simp)]
      symm
      rw [List.filter_eq_nil_iff]
      intro b hb
      simp only [decide_eq_true_eq]
      have := hhead b hb
      omega

theorem sorted_dropWhile_eq_filter (now : Nat) :
    ∀ (l : List Timer), TWSorted l →
      l.dropWhile (fun tm => tm.expTime ≤ now) =
        l.filter (fun tm => ¬ tm.expTime ≤ now) := by
  intro l hs
  induction l with
  | nil => rfl
  | cons a as ih =>
    obtain ⟨hhead, htail⟩ := List.sorted_cons.mp hs
    by_cases ha : a.expTime ≤ now
    · simp only [List.dropWhile_cons, List.filter_cons, ha]
      simp [ha, ih htail]
    · simp only [List.dropWhile_cons, List.filter_cons, ha]
      rw [if_neg (by simp)]
      congr 1
      symm
      rw [List.filter_eq_self]
      intro b hb
      simp only [decide_eq_true_eq]
      have := hhead b hb
      omega

/-- C8: For every sequence of add and remove operations on the timer
wheel, `next_timeout()` returns the minimum expiration time over all
pending timers (`None` when none are pending), and `process` fires
and removes exactly the pending entries whose expiry is at or before
the current time, invoking their callbacks in non-decreasing expiry
order (the fired list is sorted, and the wheel retains exactly the
entries that are not yet due). -/
theorem timer_c8_next_timeout_min_and_process_due {l : List Timer}
    (h : TWReach l) (now : Nat) :
    (twNextTimeout l = none ↔ l = []) ∧
    (∀ m, twNextTimeout l = some m →
      (∃ tm ∈ l, tm.expTime = m) ∧ ∀ tm ∈ l, m ≤ tm.expTime) ∧
    (twProcess now l).1 = l.filter (fun tm => tm.expTime ≤ now) ∧
    (twProcess now l).2 = l.filter (fun tm => ¬ tm.expTime ≤ now) ∧
    TWSorted (twProcess now l).1 := by
  have hs : TWSorted l := twReach_sorted h
  refine ⟨?_, ?_, ?_, ?_, ?_⟩
  · cases l with
    | nil => simp [twNextTimeout]
    | cons a as => simp [twNextTimeout]
  · intro m hm
    cases l with
    | nil => simp [twNextTimeout] at hm
    | cons a as =>
      have hm' : a.expTime = m := by simpa [twNextTimeout] using hm
      obtain ⟨hhead, _⟩ := List.sorted_cons.mp hs
      refine ⟨⟨a, List.mem_cons_self a as, hm'⟩, ?_⟩
      intro tm htm
      rcases List.mem_cons.mp htm with rfl | htm
      · omega
      · have := hhead tm htm; omega
  · exact sorted_takeWhile_eq_filter now l hs
  · exact sorted_dropWhile_eq_filter now l hs
  · exact hs.sublist (List.takeWhile_sublist _)

/-- Witness for C8 at a concrete reachable wheel: add expirations
5, 3 and 9, remove the 5 entry, then inspect `next_timeout` and
`process(4)`. -/
theorem timer_c8_witness :
    let l := (twAdd (twAdd (twAdd [] ((0, 5) : Timer)) (1, 3)) (2, 9)).erase (0, 5)
    (twNextTimeout l = none ↔ l = []) ∧
    (∀ m, twNextTimeout l = some m →
      (∃ tm ∈ l, tm.expTime = m) ∧ ∀ tm ∈ l, m ≤ tm.expTime) ∧
    (twProcess 4 l).1 = l.filter (fun tm => tm.expTime ≤ 4) ∧
    (twProcess 4 l).2 = l.filter (fun tm => ¬ tm.expTime ≤ 4) ∧
    TWSorted (twProcess 4 l).1 :=
  timer_c8_next_timeout_min_and_process_due
    (TWReach.remove (0, 5) (by decide)
      (TWReach.add (2, 9) (TWReach.add (1, 3) (TWReach.add (0, 5)
        TWReach.init)))) 4

/-- C5 counterexample: the claim says removing an already-fired
timer handle never raises and is a no-op.  In the code,
`TimerManager.remove` first evaluates `self.deque[0]`, which raises
`IndexError` on an empty deque, and otherwise calls
`self.deque.remove(timer)`, which raises `ValueError` when the timer
is not present.  Concretely: add a timer with expiration 1, let
`process` at time 2 fire it, then `remove` it — the call raises
(modelled by `none`) instead of being a silent no-op. -/
theorem timer_c5_counterexample :
    (twProcess 2 (twAdd [] ((0, 1) : Timer))).1 = [((0, 1) : Timer)] ∧
    (twProcess 2 (twAdd [] ((0, 1) : Timer))).2 = [] ∧
    twRemove (twProcess 2 (twAdd [] ((0, 1) : Timer))).2 (0, 1) = none := by
  refine ⟨?_, ?_, ?_⟩ <;> rfl

/-- C5 (amended): calling `remove` with a timer handle that is no
longer pending (for instance one that has already fired) raises an
exception — `IndexError` when the deque is empty, `ValueError`
otherwise — and the exception propagates before any mutation, so the
set of pending timers is unchanged; `remove` succeeds only on a
pending timer, removing exactly its first occurrence. -/
theorem timer_c5_remove_fired_raises (l : List Timer) (tm : Timer) :
    (tm ∉ l → twRemove l tm = none) ∧
    (tm ∈ l → twRemove l tm = some (l.erase tm)) := by
  constructor
  · intro hnm; simp [twRemove, hnm]
  · intro hm; simp [twRemove, hm]

/-- Witness for the amended C5 at concrete inputs: removing the
fired `(0, 1)` from the empty wheel raises; removing the pending
`(1, 7)` from `[(1, 7)]` succeeds and empties the wheel. -/
theorem timer_c5_witness :
    twRemove [] ((0, 1) : Timer) = none ∧
    twRemove [((1, 7) : Timer)] (1, 7) = some [] :=
  ⟨(timer_c5_remove_fired_raises [] (0, 1)).1 (by decide),
   (timer_c5_remove_fired_raises [(1, 7)] (1, 7)).2 (by decide)⟩

/-! ## Association lists (Python `dict`, insertion-ordered)

`alGet` is `d.get(k)`; `alPut` is `d[k] = v` (replace in place, else
append, matching dict insertion order); `alDel` is `del d[k]`
(callers guard existence, as the Python code does). -/

def alGet {κ α : Type} [DecidableEq κ] (k : κ) : List (κ × α) → Option α
  | [] => none
  | (k', v) :: rest => if k' = k then some v else alGet k rest

def alPut {κ α : Type} [DecidableEq κ] (k : κ) (v : α) :
    List (κ × α) → List (κ × α)
  | [] => [(k, v)]
  | (k', v') :: rest =>
    if k' = k then (k, v) :: rest else (k', v') :: alPut k v rest

def alDel {κ α : Type} [DecidableEq κ] (k : κ) :
    List (κ × α) → List (κ × α)
  | [] => []
  | (k', v') :: rest => if k' = k then rest else (k', v') :: alDel k rest

/-! ## Service properties (`paf/props.py`, `paf/proto.py` `PropsField`)

On the wire, `service-props` is `{ string -> [ (string|int)* ] }`;
`PropsField.from_wire` turns each inner list into a Python `set`
(duplicates collapse).  A property map is modelled as an association
list from keys to value lists, compared with Python's `dict`/`set`
equality (`propsEq`). -/

/-- A service property value: a string or an integer
(`proto.py` `from_wire` accepts `(str, int)`). -/
inductive PropValue where
  | str (s : String)
  | int (i : Int)
deriving DecidableEq, Repr

/-- A service property map. -/
abbrev Props := List (String × List PropValue)

/-- Membership test of a value in a value set. -/
def pvMem (v : PropValue) (vs : List PropValue) : Bool :=
  vs.any (fun w => w = v)

/-- Python `set` equality of the two value collections. -/
def valuesEq (a b : List PropValue) : Bool :=
  a.all (fun v => pvMem v b) && b.all (fun v => pvMem v a)

/-- One-sided inclusion for `dict` equality. -/
def propsIncl (p q : Props) : Bool :=
  p.all (fun kv =>
    match alGet kv.1 q with
    | some vs => valuesEq kv.2 vs
    | none => false)

/-- Python `dict` equality of two property maps with `set` values
(used by `service_props != service.props()` in `Client.publish`). -/
def propsEq (p q : Props) : Bool :=
  propsIncl p q && propsIncl q p

/-! ## Filter language (`paf/filter.py`)

The abstract syntax mirrors the `Filter` class hierarchy: `Equal`,
`GreaterThan`, `LessThan`, `Present`, `Substring`, `Not`, `And`,
`Or`.  `And`/`Or` hold operand lists, encoded as the mutually
inductive `PFilterList` so that mutual recursion and induction stay
structural. -/

mutual
inductive PFilter where
  | eqF (key value : String)
  | gtF (key : String) (num : Int)
  | ltF (key : String) (num : Int)
  | presentF (key : String)
  | substrF (key : String) (ini : Option String) (mids : List String)
      (lastS : Option String)
  | notF (op : PFilter)
  | andF (ops : PFilterList)
  | orF (ops : PFilterList)
inductive PFilterList where
  | nil
  | cons (f : PFilter) (fs : PFilterList)
end

deriving instance DecidableEq for PFilter
deriving instance DecidableEq for PFilterList
deriving instance Repr for PFilter
deriving instance Repr for PFilterList

/-- Number of operands. -/
def PFilterList.len : PFilterList → Nat
  | .nil => 0
  | .cons _ fs => fs.len + 1

/-- Append a parsed operand at the end (`operands.append(...)`). -/
def PFilterList.snoc : PFilterList → PFilter → PFilterList
  | .nil, f => .cons f .nil
  | .cons g gs, f => .cons g (gs.snoc f)

def PFilterList.appendL : PFilterList → PFilterList → PFilterList
  | .nil, l => l
  | .cons g gs, l => .cons g (gs.appendL l)

/-- The `SPECIALS` set of `filter.py`:
`( ) * \ & | = > <` (note `!` is not special). -/
def isSpecialChar (c : Char) : Bool :=
  c = '(' || c = ')' || c = '*' || c = '\\' || c = '&' || c = '|' ||
  c = '=' || c = '>' || c = '<'

/-- `filter.escape(in_str)`: prefix every special character with a
backslash. -/
def escChars : List Char → List Char
  | [] => []
  | c :: rest =>
    if isSpecialChar c then '\\' :: c :: escChars rest
    else c :: escChars rest

def escapeStr (s : String) : String := ⟨escChars s.data⟩

/-- Decimal digits of `n`, most significant first, accumulated onto
`acc`.  Structural fuel recursion (`n` itself is always enough fuel
since `n / 10 < n`). -/
def natDigitsGo : Nat → Nat → List Char → List Char
  | 0, n, acc => Char.ofNat (48 + n % 10) :: acc -- reached only for n < 10
  | fuel + 1, n, acc =>
    let d := Char.ofNat (48 + n % 10)
    if n < 10 then d :: acc
    else natDigitsGo fuel (n / 10) (d :: acc)

def natDecimal (n : Nat) : List Char := natDigitsGo n n []

/-- Python `str()` of an integer: canonical decimal representation,
with a leading `-` for negative values. -/
def pyIntStr (i : Int) : String :=
  if i < 0 then ⟨'-' :: natDecimal i.natAbs⟩ else ⟨natDecimal i.natAbs⟩

/-- Parse a digit sequence left to right (`none` on a non-digit). -/
def parseDigitsF : List Char → Nat → Option Nat
  | [], acc => some acc
  | c :: cs, acc =>
    if c.isDigit then parseDigitsF cs (acc * 10 + (c.toNat - 48))
    else none

/-- Python `int(value)` combined with the `value.strip() == value`
pre-check of `_parse_greater_and_less_than`: an optional sign
followed by one or more digits.  (CPython's `int` additionally
accepts underscore grouping between digits and non-ASCII decimal
digits; those inputs are outside the printer's image and are not
modelled.) -/
def pyInt (s : String) : Option Int :=
  match s.data with
  | [] => none
  | c :: rest =>
    if c = '-' then
      if rest.isEmpty then none
      else
        match parseDigitsF rest 0 with
        | some n => some (-(n : Int))
        | none => none
    else if c = '+' then
      if rest.isEmpty then none
      else
        match parseDigitsF rest 0 with
        | some n => some ((n : Int))
        | none => none
    else
      match parseDigitsF (c :: rest) 0 with
      | some n => some ((n : Int))
      | none => none

/-- `escape(intermediate) + ANY` for each intermediate pattern part
(`Substring.__str__`). -/
def midsChars : List String → List Char
  | [] => []
  | v :: vs => escChars v.data ++ '*' :: midsChars vs

mutual
/-- The character sequence between the outer parentheses of
`__str__` for each filter node (strings are handled as their
character lists); `pfToString` wraps it in `BEGIN_EXPR`/`END_EXPR`
exactly as every `__str__` method does. -/
def pfInnerChars : PFilter → List Char
  | .eqF k v => escChars k.data ++ '=' :: escChars v.data
  | .gtF k n => escChars k.data ++ '>' :: escChars (pyIntStr n).data
  | .ltF k n => escChars k.data ++ '<' :: escChars (pyIntStr n).data
  | .presentF k => escChars k.data ++ ['=', '*']
  | .substrF k ini mids lastS =>
    escChars k.data ++ '=' ::
    ((match ini with
      | some v => escChars v.data ++ ['*']
      | none => ['*']) ++
     (midsChars mids ++
      (match lastS with
       | some v => escChars v.data
       | none => [])))
  | .notF f => '!' :: '(' :: (pfInnerChars f ++ [')'])
  | .andF ops => '&' :: pflChars ops
  | .orF ops => '|' :: pflChars ops
/-- Operand list printing: each operand appears with its own
parentheses (`CompositeFilter.__str__`). -/
def pflChars : PFilterList → List Char
  | .nil => []
  | .cons f fs => '(' :: (pfInnerChars f ++ ')' :: pflChars fs)
end

/-- `Filter.__str__`. -/
def pfToString (F : PFilter) : String := ⟨'(' :: (pfInnerChars F ++ [')'])⟩

/-- `Filter.__eq__(self, other)`: `str(self) == str(other)`. -/
def pfPyEq (a b : PFilter) : Bool := pfToString a == pfToString b

/-! ### Evaluation (`match` methods) -/

/-- `Equal.compare(value)`: a string value is compared directly with
the (string) filter value; any other value is first converted with
`str()`, so an integer value matches when the filter string equals
its decimal representation. -/
def equalCompare (fv : String) (v : PropValue) : Bool :=
  match v with
  | .str s => fv == s
  | .int i => fv == pyIntStr i

/-- `GreaterThan.compare(value)`:
`type(value) == int and value > self.value`. -/
def gtCompare (n : Int) (v : PropValue) : Bool :=
  match v with
  | .int i => n < i
  | .str _ => false

/-- `LessThan.compare(value)`:
`type(value) == int and value < self.value`. -/
def ltCompare (n : Int) (v : PropValue) : Bool :=
  match v with
  | .int i => i < n
  | .str _ => false

/-- `Comparison.match(service)`: look the key up; on a hit, scan the
value set for any value accepted by `compare`. -/
def anyCompare (cmp : PropValue → Bool) (p : Props) (key : String) : Bool :=
  match alGet key p with
  | none => false
  | some vs => vs.any cmp

/-- First occurrence of `pat` in `s`; returns the suffix after it. -/
def dropAfterFirst (pat : List Char) : List Char → Option (List Char)
  | [] => if pat.isEmpty then some [] else none
  | c :: t =>
    if pat.isPrefixOf (c :: t) then some ((c :: t).drop pat.length)
    else dropAfterFirst pat t

/-- Match the intermediate patterns in order, non-overlapping,
leftmost first. -/
def seqContains : List (List Char) → List Char → Option (List Char)
  | [], s => some s
  | p :: ps, s =>
    match dropAfterFirst p s with
    | none => none
    | some s2 => seqContains ps s2

/-- The regular expression `^ini.*m1.*…*mk.*lastS$` compiled by
`Substring.__init__`, applied to a string: prefix check, then each
intermediate part leftmost and non-overlapping, then suffix check
(leftmost search is complete for this pattern family). -/
def substrMatchStr (ini : Option String) (mids : List String)
    (lastS : Option String) (s : String) : Bool :=
  let cs := s.data
  let afterIni : Option (List Char) :=
    match ini with
    | some p => if p.data.isPrefixOf cs then some (cs.drop p.data.length)
                else none
    | none => some cs
  match afterIni with
  | none => false
  | some cs2 =>
    match seqContains (mids.map String.data) cs2 with
    | none => false
    | some cs3 =>
      match lastS with
      | some p => p.data.isSuffixOf cs3
      | none => true

/-- `Substring.match` applies `re.search` to each value;
`re.search` raises `TypeError` on a non-string value (modelled by
`none`). -/
def substrValue (ini : Option String) (mids : List String)
    (lastS : Option String) (v : PropValue) : Option Bool :=
  match v with
  | .str s => some (substrMatchStr ini mids lastS s)
  | .int _ => none

/-- The `for value in values` loop of `Substring.match`: stop at the
first accepted value; a `TypeError` (`none`) aborts the scan. -/
def substrAny (f : PropValue → Option Bool) : List PropValue → Option Bool
  | [] => some false
  | v :: vs =>
    match f v with
    | none => none
    | some true => some true
    | some false => substrAny f vs

mutual
/-- Filter evaluation (`Filter.match(service)` for each node class).
`none` models a raised `TypeError` (only possible from `Substring`
applied to an integer value); boolean combinators short-circuit
exactly as the Python loops do. -/
def matchF : PFilter → Props → Option Bool
  | .eqF k v, p => some (anyCompare (equalCompare v) p k)
  | .gtF k n, p => some (anyCompare (gtCompare n) p k)
  | .ltF k n, p => some (anyCompare (ltCompare n) p k)
  | .presentF k, p => some (alGet k p).isSome
  | .substrF k ini mids lastS, p =>
    match alGet k p with
    | none => some false
    | some vs => substrAny (substrValue ini mids lastS) vs
  | .notF f, p =>
    match matchF f p with
    | none => none
    | some b => some (!b)
  | .andF ops, p => matchL true ops p
  | .orF ops, p => matchL false ops p
/-- `And.match` / `Or.match` loops (`isAnd` selects which): stop at
the first `False` (resp. `True`). -/
def matchL : Bool → PFilterList → Props → Option Bool
  | isAnd, .nil, _ => some isAnd
  | isAnd, .cons f fs, p =>
    match matchF f p with
    | none => none
    | some b =>
      if isAnd then (if b then matchL true fs p else some false)
      else (if b then some true else matchL false fs p)
end

/-! ### Parser (`parse` and the `_parse_*` helpers)

The parser operates on the character list of the input.  A result is
`Except PErr (value × rest)`.  Recursion into subexpressions is
fuelled; the top-level `parseFilter` supplies the input length as
fuel, which is always sufficient because every recursive entry first
consumes at least one character (`.fuel` is therefore unreachable,
and distinct from a genuine `ParseError`). -/

inductive PErr where
  | parse -- ParseError (any of its messages)
  | fuel  -- fuel exhaustion; unreachable for the fuel supplied
deriving DecidableEq, Repr

/-- `ParseState.expect(expected)`: `current()` raises at end of
input, otherwise compare and consume. -/
def expectC (c : Char) (s : List Char) : Except PErr (List Char) :=
  match s with
  | [] => .error .parse
  | c' :: rest => if c' = c then .ok rest else .error .parse

/-- `_parse_str(state)`: collect characters up to the first
unescaped special character (which is not consumed); a backslash
escapes exactly the special characters; end of input inside the
scan raises. -/
def pStrAux : Bool → List Char → Except PErr (List Char × List Char)
  | _, [] => .error .parse
  | false, c :: rest =>
    if c = '\\' then pStrAux true rest
    else if isSpecialChar c then .ok ([], c :: rest)
    else
      match pStrAux false rest with
      | .ok (out, rem) => .ok (c :: out, rem)
      | .error e => .error e
  | true, c :: rest =>
    if isSpecialChar c then
      match pStrAux false rest with
      | .ok (out, rem) => .ok (c :: out, rem)
      | .error e => .error e
    else .error .parse

def pStr (s : List Char) : Except PErr (List Char × List Char) :=
  pStrAux false s

/-- `_parse_greater_and_less_than` after the operator was consumed:
read a string, require it to be an integer literal. -/
def pGLTail (isGt : Bool) (key : String) (s : List Char) :
    Except PErr (PFilter × List Char) :=
  match pStr s with
  | .error e => .error e
  | .ok (v, s2) =>
    match pyInt ⟨v⟩ with
    | some n => .ok (if isGt then .gtF key n else .ltF key n, s2)
    | none => .error .parse

/-- The wildcard loop of `_parse_equal` (after the first `ANY` was
consumed): read parts separated by `*`; a part before `*` must be
non-empty; the part after the last `*` becomes `final` (or `None`
when empty); an all-empty pattern is a `Present` filter. -/
def pSubstrLoop : Nat → String → Option String → List String →
    List Char → Except PErr (PFilter × List Char)
  | 0, _, _, _, _ => .error .fuel
  | fuel + 1, key, ini, mids, s =>
    match pStr s with
    | .error e => .error e
    | .ok (v, s2) =>
      if s2.head? = some ('*') then
        if v.isEmpty then .error .parse
        else pSubstrLoop fuel key ini (mids ++ [⟨v⟩]) s2.tail
      else
        let lastS : Option String := if v.isEmpty then none else some ⟨v⟩
        if ini = none ∧ mids = [] ∧ lastS = none then .ok (.presentF key, s2)
        else .ok (.substrF key ini mids lastS, s2)

/-- `_parse_equal` after the `=` was consumed. -/
def pEqualTail (fuel : Nat) (key : String) (s : List Char) :
    Except PErr (PFilter × List Char) :=
  match pStr s with
  | .error e => .error e
  | .ok (v, s2) =>
    if s2.head? = some ('*') then
      pSubstrLoop fuel key (if v.isEmpty then none else some ⟨v⟩) [] s2.tail
    else
      if v.isEmpty then .error .parse
      else .ok (.eqF key ⟨v⟩, s2)

/-- `_parse_simple`: read the key, check it non-empty, dispatch on
the operator character. -/
def pSimple (fuel : Nat) (s : List Char) :
    Except PErr (PFilter × List Char) :=
  match pStr s with
  | .error e => .error e
  | .ok (k, s2) =>
    if k.isEmpty then .error .parse
    else if s2.head? = some ('=') then pEqualTail fuel ⟨k⟩ s2.tail
    else if s2.head? = some ('>') then pGLTail true ⟨k⟩ s2.tail
    else if s2.head? = some ('<') then pGLTail false ⟨k⟩ s2.tail
    else .error .parse

mutual
/-- `_parse(state)`: dispatch on the current character. -/
def pExpr : Nat → List Char → Except PErr (PFilter × List Char)
  | _, [] => .error .parse
  | fuel, c :: s =>
    if c = '&' then pComposite fuel true (c :: s)
    else if c = '|' then pComposite fuel false (c :: s)
    else if c = '!' then pNot fuel (c :: s)
    else pSimple fuel (c :: s)

/-- `_parse_not`. -/
def pNot : Nat → List Char → Except PErr (PFilter × List Char)
  | 0, _ => .error .fuel
  | fuel + 1, s =>
    match expectC '!' s with
    | .error e => .error e
    | .ok s2 =>
      match expectC '(' s2 with
      | .error e => .error e
      | .ok s3 =>
        match pExpr fuel s3 with
        | .error e => .error e
        | .ok (f, s4) =>
          match expectC ')' s4 with
          | .error e => .error e
          | .ok s5 => .ok (.notF f, s5)

/-- `_parse_composite` for `&` (`isAnd`) or `|`. -/
def pComposite : Nat → Bool → List Char →
    Except PErr (PFilter × List Char)
  | 0, _, _ => .error .fuel
  | fuel + 1, isAnd, s =>
    match expectC (if isAnd then '&' else '|') s with
    | .error e => .error e
    | .ok s2 =>
      match pOperands fuel s2 .nil with
      | .error e => .error e
      | .ok (ops, s3) => .ok (if isAnd then .andF ops else .orF ops, s3)

/-- The operand loop of `_parse_composite`: parenthesised operands
until `END_EXPR` (left unconsumed for the caller), requiring at
least two. -/
def pOperands : Nat → List Char → PFilterList →
    Except PErr (PFilterList × List Char)
  | 0, _, _ => .error .fuel
  | fuel + 1, s, acc =>
    if s.head? = some ('(') then
      match pExpr fuel s.tail with
      | .error e => .error e
      | .ok (f, s3) =>
        match expectC ')' s3 with
        | .error e => .error e
        | .ok s4 => pOperands fuel s4 (acc.snoc f)
    else if s.head? = some (')') then
      (if acc.len < 2 then .error .parse else .ok (acc, s))
    else .error .parse
end

/-- `filter.parse(filter_s)`: expect `(`, parse the expression,
expect `)`, and reject trailing input. -/
def parseFilter (str : String) : Except PErr PFilter :=
  match expectC '(' str.data with
  | .error e => .error e
  | .ok s1 =>
    match pExpr s1.length s1 with
    | .error e => .error e
    | .ok (f, s2) =>
      match expectC ')' s2 with
      | .error e => .error e
      | .ok s3 => if s3.isEmpty then .ok f else .error .parse

/-! ### Printer/parser round trip: integer literals -/

def tenPow (n : Nat) : Nat :=
  if n < 10 then 10 else 10 * tenPow (n / 10)
termination_by n
decreasing_by omega

theorem digitChar_facts (m : Nat) (h : m < 10) :
    (Char.ofNat (48 + m)).isDigit = true ∧
    isSpecialChar (Char.ofNat (48 + m)) = false ∧
    (Char.ofNat (48 + m)).toNat = 48 + m ∧
    Char.ofNat (48 + m) ≠ '-' ∧ Char.ofNat (48 + m) ≠ '+' := by
  interval_cases m <;> exact ⟨by decide, by decide, by decide, by decide,
    by decide⟩

theorem parseDigitsF_natDigitsGo (fuel : Nat) :
    ∀ n rest acc, n ≤ fuel →
      parseDigitsF (natDigitsGo fuel n rest) acc =
        parseDigitsF rest (acc * tenPow n + n) := by
  induction fuel with
  | zero =>
    intro n rest acc hn
    have hn0 : n = 0 := by omega
    subst hn0
    obtain ⟨hdig, _, htn, _, _⟩ := digitChar_facts 0 (by omega)
    simp only [natDigitsGo, parseDigitsF]
    rw [show (48 + 0 % 10) = 48 + 0 by norm_num] at *
    simp only [hdig, if_true, htn]
    rw [tenPow]
    norm_num
  | succ fuel ih =>
    intro n rest acc hn
    by_cases hlt : n < 10
    · obtain ⟨hdig, _, htn, _, _⟩ := digitChar_facts (n % 10) (by omega)
      simp only [natDigitsGo, hlt, if_true, parseDigitsF, hdig, htn]
      rw [tenPow, if_pos hlt]
      have : n % 10 = n := Nat.mod_eq_of_lt hlt
      rw [this]
      norm_num
    · simp only [natDigitsGo, hlt, if_false]
      have hrec : n / 10 ≤ fuel := by omega
      rw [ih (n / 10) _ acc hrec]
      obtain ⟨hdig, _, htn, _, _⟩ := digitChar_facts (n % 10) (by omega)
      simp only [parseDigitsF, hdig, htn, if_true]
      have htp : tenPow n = 10 * tenPow (n / 10) := by
        conv_lhs => rw [tenPow]
        rw [if_neg hlt]
      have harith :
          (acc * tenPow (n / 10) + n / 10) * 10 + (48 + n % 10 - 48) =
            acc * tenPow n + n := by
        rw [htp]
        have hmod : 10 * (n / 10) + n % 10 = n := Nat.div_add_mod n 10
        have h48 : 48 + n % 10 - 48 = n % 10 := by omega
        rw [h48]
        calc (acc * tenPow (n / 10) + n / 10) * 10 + n % 10
            = acc * (10 * tenPow (n / 10)) + (10 * (n / 10) + n % 10) := by
              ring
          _ = acc * (10 * tenPow (n / 10)) + n := by rw [hmod]
      rw [harith]

theorem parseDigitsF_natDecimal (n : Nat) :
    parseDigitsF (natDecimal n) 0 = some n := by
  unfold natDecimal
  rw [parseDigitsF_natDigitsGo n n [] 0 (le_refl n)]
  simp [parseDigitsF]

theorem natDigitsGo_shape (fuel : Nat) :
    ∀ n acc, ∃ m t, m < 10 ∧
      natDigitsGo fuel n acc = Char.ofNat (48 + m) :: t := by
  induction fuel with
  | zero =>
    intro n acc
    exact ⟨n % 10, acc, by omega, rfl⟩
  | succ fuel ih =>
    intro n acc
    by_cases hlt : n < 10
    · refine ⟨n % 10, acc, by omega, ?_⟩
      simp [natDigitsGo, hlt]
    · obtain ⟨m, t, hm, he⟩ := ih (n / 10) (Char.ofNat (48 + n % 10) :: acc)
      refine ⟨m, t, hm, ?_⟩
      simp only [natDigitsGo, hlt, if_false]
      exact he

/-- `int(str(i)) == i`: parsing back the canonical decimal
representation produced by `str()`. -/
theorem pyInt_pyIntStr (i : Int) : pyInt (pyIntStr i) = some i := by
  obtain ⟨m, t, hm, he⟩ := natDigitsGo_shape i.natAbs i.natAbs []
  obtain ⟨hdig, _, htn, hneg, hpos⟩ := digitChar_facts m hm
  have hne : (natDecimal i.natAbs).isEmpty = false := by
    unfold natDecimal
    rw [he]
    rfl
  by_cases hi : i < 0
  · have hrepr : pyIntStr i = ⟨'-' :: natDecimal i.natAbs⟩ := by
      simp [pyIntStr, hi]
    rw [hrepr]
    show pyInt ⟨'-' :: natDecimal i.natAbs⟩ = some i
    simp only [pyInt, hne, parseDigitsF_natDecimal, if_pos rfl]
    simp only [Bool.false_eq_true, if_false]
    rw [if_pos trivial]
    congr 1
    omega
  · have hrepr : pyIntStr i = ⟨natDecimal i.natAbs⟩ := by
      simp [pyIntStr, hi]
    rw [hrepr]
    show pyInt ⟨natDecimal i.natAbs⟩ = some i
    have hu : (natDecimal i.natAbs) = Char.ofNat (48 + m) :: t := he
    simp only [pyInt, hu, if_neg hneg, if_neg hpos]
    rw [← hu, parseDigitsF_natDecimal]
    show some ((i.natAbs : Int)) = some i
    congr 1
    omega

/-! ### The image of the parser

`keyOk` captures the one structural restriction on keys the grammar
imposes: a key is non-empty (`_check_key`) and cannot begin with
`!`, because an expression whose first character is `!` is always
parsed as a `Not` node and `!` is not escapable (it is not in
`SPECIALS`). -/

def keyOk (k : String) : Bool :=
  match k.data with
  | [] => false
  | c :: _ => c != '!'

mutual
/-- The filters producible by `parse` (proved sound and complete
below): non-empty keys not beginning with `!`, non-empty equal
values and substring parts, and at least two composite operands. -/
inductive WfF : PFilter → Prop where
  | eqW {k v : String} : keyOk k = true → v.data ≠ [] → WfF (.eqF k v)
  | gtW {k : String} {n : Int} : keyOk k = true → WfF (.gtF k n)
  | ltW {k : String} {n : Int} : keyOk k = true → WfF (.ltF k n)
  | presentW {k : String} : keyOk k = true → WfF (.presentF k)
  | substrW {k : String} {ini : Option String} {mids : List String}
      {lastS : Option String} :
      keyOk k = true →
      (∀ x, ini = some x → x.data ≠ []) →
      (∀ x, x ∈ mids → x.data ≠ []) →
      (∀ x, lastS = some x → x.data ≠ []) →
      ¬(ini = none ∧ mids = [] ∧ lastS = none) →
      WfF (.substrF k ini mids lastS)
  | notW {f : PFilter} : WfF f → WfF (.notF f)
  | andW {ops : PFilterList} : WfL ops → 2 ≤ ops.len → WfF (.andF ops)
  | orW {ops : PFilterList} : WfL ops → 2 ≤ ops.len → WfF (.orF ops)
inductive WfL : PFilterList → Prop where
  | nilW : WfL .nil
  | consW {f : PFilter} {fs : PFilterList} :
      WfF f → WfL fs → WfL (.cons f fs)
end

mutual
/-- Fuel sufficient for `pExpr` to parse the printed form of a
well-formed filter (each recursive entry point consumes one unit). -/
def needF : PFilter → Nat
  | .eqF _ _ => 2
  | .gtF _ _ => 2
  | .ltF _ _ => 2
  | .presentF _ => 2
  | .substrF _ _ mids _ => mids.length + 2
  | .notF f => needF f + 1
  | .andF ops => needL ops + 1
  | .orF ops => needL ops + 1
def needL : PFilterList → Nat
  | .nil => 1
  | .cons f fs => needF f + needL fs + 1
end

theorem backslash_special : isSpecialChar '\\' = true := by decide

/-- `_parse_str` undoes `escape`: scanning the escaped form of `v`
stops exactly at a terminating special character (never a
backslash, which in printed forms only occurs as an escape). -/
theorem pStrAux_escape (v : List Char) (r : Char) (rt : List Char)
    (hr : isSpecialChar r = true) (hrb : r ≠ '\\') :
    pStrAux false (escChars v ++ r :: rt) = .ok (v, r :: rt) := by
  induction v with
  | nil =>
    simp only [escChars, List.nil_append, pStrAux]
    rw [if_neg hrb, if_pos hr]
  | cons c cs ih =>
    by_cases hc : isSpecialChar c = true
    · have hcb : ('\\' : Char) = '\\' := rfl
      simp only [escChars, hc, if_true, List.cons_append, pStrAux,
        if_pos hcb, if_pos hc, ih]
    · have hcbs : c ≠ '\\' := by
        intro h; rw [h] at hc; exact hc backslash_special
      simp only [escChars, hc, if_false, List.cons_append, pStrAux,
        if_neg hcbs, Bool.false_eq_true, List.append_eq]
      rw [ih]

theorem listNeNil_isEmpty {α : Type} {l : List α} (h : l ≠ []) :
    l.isEmpty = false := by
  cases l with
  | nil => exact absurd rfl h
  | cons a as => rfl

theorem dataNeNil_isEmpty {s : String} (h : s.data ≠ []) :
    s.data.isEmpty = false := listNeNil_isEmpty h

/-- Printed form of the `final` part of a substring pattern. -/
def lastChars : Option String → List Char
  | some v => escChars v.data
  | none => []

/-- The filter the wildcard loop constructs on termination
(`Present` when every part is empty, else `Substring`). -/
def substrResult (key : String) (ini : Option String) (mids : List String)
    (lastS : Option String) : PFilter :=
  if ini = none ∧ mids = [] ∧ lastS = none then .presentF key
  else .substrF key ini mids lastS

theorem pSubstrLoop_roundtrip (ms : List String) :
    ∀ fuel key ini acc lastS rest,
      (∀ x ∈ ms, x.data ≠ []) →
      (∀ x, lastS = some x → x.data ≠ []) →
      ms.length + 1 ≤ fuel →
      pSubstrLoop fuel key ini acc
          (midsChars ms ++ (lastChars lastS ++ ')' :: rest)) =
        .ok (substrResult key ini (acc ++ ms) lastS, ')' :: rest) := by
  induction ms with
  | nil =>
    intro fuel key ini acc lastS rest _ hlast hfuel
    cases fuel with
    | zero => omega
    | succ f =>
      simp only [midsChars, List.nil_append, List.append_nil]
      cases lastS with
      | some v =>
        have hv := hlast v rfl
        simp only [lastChars, pSubstrLoop, pStr,
          pStrAux_escape v.data (')') rest (by decide) (by decide)]
        rw [if_neg (by simp : ¬ (')' :: rest).head? = some ('*'))]
        simp only [listNeNil_isEmpty hv, Bool.false_eq_true, if_false]
        rw [if_neg (by simp)]
        simp only [substrResult, List.append_nil]
        rw [if_neg (by simp)]
      | none =>
        show pSubstrLoop (f + 1) key ini acc (')' :: rest) = _
        cases ini <;> cases acc <;> rfl
  | cons m ms ih =>
    intro fuel key ini acc lastS rest hms hlast hfuel
    cases fuel with
    | zero => simp at hfuel
    | succ f =>
      have hm : m.data ≠ [] := hms m (List.mem_cons_self m ms)
      simp only [midsChars, List.append_assoc, List.cons_append]
      simp only [pSubstrLoop, pStr,
        pStrAux_escape m.data ('*')
          (midsChars ms ++ (lastChars lastS ++ ')' :: rest))
          (by decide) (by decide)]
      rw [if_pos (by simp)]
      simp only [listNeNil_isEmpty hm, Bool.false_eq_true, if_false,
        List.tail_cons]
      have hrec := ih f key ini (acc ++ [⟨m.data⟩]) lastS rest
        (fun x hx => hms x (List.mem_cons_of_mem m hx)) hlast
        (by simp only [List.length_cons] at hfuel; omega)
      rw [hrec]
      have hap : (acc ++ [(⟨m.data⟩ : String)]) ++ ms = acc ++ m :: ms := by
        simp
      rw [hap]

theorem keyOk_shape {k : String} (hk : keyOk k = true) :
    ∃ c cs, k.data = c :: cs ∧ c ≠ '!' := by
  unfold keyOk at hk
  cases hdata : k.data with
  | nil => rw [hdata] at hk; simp at hk
  | cons c cs =>
    rw [hdata] at hk
    simp only [bne_iff_ne, ne_eq] at hk
    exact ⟨c, cs, rfl, hk⟩

/-- `_parse` dispatches a printed key to `_parse_simple`: the first
character of the escaped key is a backslash or an unescapable
ordinary character, never `&`, `|` or `!`. -/
theorem pExpr_dispatch_simple (fuel : Nat) (k : String) (tail : List Char)
    (hk : keyOk k = true) :
    pExpr fuel (escChars k.data ++ tail) = pSimple fuel (escChars k.data ++ tail) := by
  obtain ⟨c, cs, hdata, hbang⟩ := keyOk_shape hk
  rw [hdata]
  by_cases hc : isSpecialChar c = true
  · simp only [escChars, hc, if_true, List.cons_append, pExpr]
    rw [if_neg (by decide : ¬ ('\\' : Char) = '&'),
      if_neg (by decide : ¬ ('\\' : Char) = '|'),
      if_neg (by decide : ¬ ('\\' : Char) = '!')]
  · have hamp : c ≠ '&' := by
      intro h; rw [h] at hc; exact hc (by decide)
    have hbar : c ≠ '|' := by
      intro h; rw [h] at hc; exact hc (by decide)
    simp only [escChars, hc, Bool.false_eq_true, if_false,
      List.cons_append, pExpr]
    rw [if_neg hamp, if_neg hbar, if_neg hbang]

theorem pSimple_key_step (fuel : Nat) (k : String) (op : Char)
    (tail : List Char) (hk : keyOk k = true)
    (hop : isSpecialChar op = true) (hopb : op ≠ '\\') :
    pSimple fuel (escChars k.data ++ op :: tail) =
      (if k.data.isEmpty then Except.error PErr.parse
       else if (op :: tail).head? = some ('=') then pEqualTail fuel ⟨k.data⟩ tail
       else if (op :: tail).head? = some ('>') then pGLTail true ⟨k.data⟩ tail
       else if (op :: tail).head? = some ('<') then pGLTail false ⟨k.data⟩ tail
       else Except.error PErr.parse) := by
  simp only [pSimple, pStr, pStrAux_escape k.data op tail hop hopb,
    List.tail_cons]

theorem pExpr_eq_roundtrip (fuel : Nat) (k v : String) (rest : List Char)
    (hk : keyOk k = true) (hv : v.data ≠ []) :
    pExpr fuel (pfInnerChars (.eqF k v) ++ ')' :: rest) =
      .ok (.eqF k v, ')' :: rest) := by
  have hassoc : pfInnerChars (.eqF k v) ++ ')' :: rest =
      escChars k.data ++ '=' :: (escChars v.data ++ ')' :: rest) := by
    simp [pfInnerChars]
  rw [hassoc, pExpr_dispatch_simple fuel k _ hk,
    pSimple_key_step fuel k ('=') _ hk (by decide) (by decide)]
  obtain ⟨c, cs, hdata, _⟩ := keyOk_shape hk
  rw [if_neg (by rw [hdata]; simp)]
  rw [if_pos (by simp)]
  simp only [pEqualTail, pStr,
    pStrAux_escape v.data (')') rest (by decide) (by decide)]
  rw [if_neg (by simp)]
  simp only [listNeNil_isEmpty hv, Bool.false_eq_true, if_false]

theorem pExpr_gl_roundtrip (fuel : Nat) (isGt : Bool) (k : String) (n : Int)
    (rest : List Char) (hk : keyOk k = true) :
    pExpr fuel (pfInnerChars (if isGt then .gtF k n else .ltF k n) ++
        ')' :: rest) =
      .ok (if isGt then .gtF k n else .ltF k n, ')' :: rest) := by
  obtain ⟨c, cs, hdata, _⟩ := keyOk_shape hk
  cases isGt with
  | true =>
    have hassoc : pfInnerChars (.gtF k n) ++ ')' :: rest =
        escChars k.data ++ '>' :: (escChars (pyIntStr n).data ++ ')' :: rest) := by
      simp [pfInnerChars]
    simp only [if_true]
    rw [hassoc, pExpr_dispatch_simple fuel k _ hk,
      pSimple_key_step fuel k ('>') _ hk (by decide) (by decide)]
    rw [if_neg (by rw [hdata]; simp)]
    rw [if_neg (by simp), if_pos (by simp)]
    simp only [pGLTail, pStr,
      pStrAux_escape (pyIntStr n).data (')') rest (by decide) (by decide)]
    have : (⟨(pyIntStr n).data⟩ : String) = pyIntStr n := rfl
    rw [this, pyInt_pyIntStr n]
    rfl
  | false =>
    have hassoc : pfInnerChars (.ltF k n) ++ ')' :: rest =
        escChars k.data ++ '<' :: (escChars (pyIntStr n).data ++ ')' :: rest) := by
      simp [pfInnerChars]
    simp only [if_false, Bool.false_eq_true]
    rw [hassoc, pExpr_dispatch_simple fuel k _ hk,
      pSimple_key_step fuel k ('<') _ hk (by decide) (by decide)]
    rw [if_neg (by rw [hdata]; simp)]
    rw [if_neg (by simp), if_neg (by simp), if_pos (by simp)]
    simp only [pGLTail, pStr,
      pStrAux_escape (pyIntStr n).data (')') rest (by decide) (by decide)]
    have : (⟨(pyIntStr n).data⟩ : String) = pyIntStr n := rfl
    rw [this, pyInt_pyIntStr n]
    rfl

theorem pExpr_present_roundtrip (fuel : Nat) (k : String) (rest : List Char)
    (hk : keyOk k = true) (hfuel : 1 ≤ fuel) :
    pExpr fuel (pfInnerChars (.presentF k) ++ ')' :: rest) =
      .ok (.presentF k, ')' :: rest) := by
  obtain ⟨c, cs, hdata, _⟩ := keyOk_shape hk
  have hassoc : pfInnerChars (.presentF k) ++ ')' :: rest =
      escChars k.data ++ '=' :: ('*' :: ')' :: rest) := by
    simp [pfInnerChars]
  rw [hassoc, pExpr_dispatch_simple fuel k _ hk,
    pSimple_key_step fuel k ('=') _ hk (by decide) (by decide)]
  rw [if_neg (by rw [hdata]; simp)]
  rw [if_pos (by simp)]
  have hstep : pEqualTail fuel (⟨k.data⟩ : String) ('*' :: ')' :: rest) =
      pSubstrLoop fuel ⟨k.data⟩ none [] (')' :: rest) := rfl
  rw [hstep]
  have := pSubstrLoop_roundtrip [] fuel ⟨k.data⟩ none [] none rest
    (by simp) (by simp) (by simp only [List.length_nil]; omega)
  simp only [midsChars, lastChars, List.nil_append] at this
  rw [this]
  rfl

theorem pExpr_substr_roundtrip (fuel : Nat) (k : String)
    (ini : Option String) (mids : List String) (lastS : Option String)
    (rest : List Char) (hk : keyOk k = true)
    (hini : ∀ x, ini = some x → x.data ≠ [])
    (hmids : ∀ x, x ∈ mids → x.data ≠ [])
    (hlast : ∀ x, lastS = some x → x.data ≠ [])
    (hne : ¬(ini = none ∧ mids = [] ∧ lastS = none))
    (hfuel : mids.length + 1 ≤ fuel) :
    pExpr fuel (pfInnerChars (.substrF k ini mids lastS) ++ ')' :: rest) =
      .ok (.substrF k ini mids lastS, ')' :: rest) := by
  obtain ⟨c, cs, hdata, _⟩ := keyOk_shape hk
  cases ini with
  | some iv =>
    have hiv : iv.data ≠ [] := hini iv rfl
    have hassoc : pfInnerChars (.substrF k (some iv) mids lastS) ++
        ')' :: rest =
        escChars k.data ++ '=' ::
          (escChars iv.data ++ '*' ::
            (midsChars mids ++ (lastChars lastS ++ ')' :: rest))) := by
      simp only [pfInnerChars, lastChars]
      cases lastS <;> simp [lastChars, List.append_assoc]
    rw [hassoc, pExpr_dispatch_simple fuel k _ hk,
      pSimple_key_step fuel k ('=') _ hk (by decide) (by decide)]
    rw [if_neg (by rw [hdata]; simp)]
    rw [if_pos (by simp)]
    simp only [pEqualTail, pStr,
      pStrAux_escape iv.data ('*')
        (midsChars mids ++ (lastChars lastS ++ ')' :: rest))
        (by decide) (by decide)]
    rw [if_pos (by simp)]
    simp only [listNeNil_isEmpty hiv, Bool.false_eq_true, if_false,
      List.tail_cons]
    have heta : (⟨iv.data⟩ : String) = iv := rfl
    rw [heta]
    rw [pSubstrLoop_roundtrip mids fuel ⟨k.data⟩ (some iv) [] lastS rest
      hmids hlast hfuel]
    simp only [List.nil_append, substrResult]
    rw [if_neg (by simp)]
  | none =>
    have hassoc : pfInnerChars (.substrF k none mids lastS) ++
        ')' :: rest =
        escChars k.data ++ '=' ::
          ('*' :: (midsChars mids ++ (lastChars lastS ++ ')' :: rest))) := by
      simp only [pfInnerChars, lastChars]
      cases lastS <;> simp [lastChars, List.append_assoc]
    rw [hassoc, pExpr_dispatch_simple fuel k _ hk,
      pSimple_key_step fuel k ('=') _ hk (by decide) (by decide)]
    rw [if_neg (by rw [hdata]; simp)]
    rw [if_pos (by simp)]
    have hstep : pEqualTail fuel (⟨k.data⟩ : String)
        ('*' :: (midsChars mids ++ (lastChars lastS ++ ')' :: rest))) =
        pSubstrLoop fuel ⟨k.data⟩ none []
          (midsChars mids ++ (lastChars lastS ++ ')' :: rest)) := rfl
    rw [hstep]
    rw [pSubstrLoop_roundtrip mids fuel ⟨k.data⟩ none [] lastS rest
      hmids hlast hfuel]
    simp only [List.nil_append, substrResult]
    rw [if_neg (by
      intro hcond
      exact hne ⟨rfl, hcond.2.1, hcond.2.2⟩)]


theorem appendL_nil_right : ∀ (acc : PFilterList), acc.appendL .nil = acc
  | .nil => rfl
  | .cons g gs => by
    simp only [PFilterList.appendL]
    rw [appendL_nil_right gs]

theorem snoc_appendL (f : PFilter) (fs : PFilterList) :
    ∀ (acc : PFilterList), (acc.snoc f).appendL fs = acc.appendL (.cons f fs)
  | .nil => rfl
  | .cons g gs => by
    simp only [PFilterList.snoc, PFilterList.appendL]
    rw [snoc_appendL f fs gs]

mutual
/-- `_parse` is a left inverse of printing, for well-formed filters
and sufficient fuel: parsing the printed body of `F` (terminated by
the closing parenthesis supplied by the caller) yields `F` exactly
and consumes exactly the body. -/
theorem pExpr_roundtrip (fuel : Nat) (F : PFilter) (rest : List Char)
    (hw : WfF F) (hfuel : needF F ≤ fuel) :
    pExpr fuel (pfInnerChars F ++ ')' :: rest) = .ok (F, ')' :: rest) := by
  cases hw with
  | eqW hk hv => exact pExpr_eq_roundtrip fuel _ _ rest hk hv
  | gtW hk =>
    rename_i k n
    have := pExpr_gl_roundtrip fuel true k n rest hk
    simpa using this
  | ltW hk =>
    rename_i k n
    have := pExpr_gl_roundtrip fuel false k n rest hk
    simpa using this
  | presentW hk =>
    refine pExpr_present_roundtrip fuel _ rest hk ?_
    simp only [needF] at hfuel
    omega
  | substrW hk hini hmids hlast hne =>
    refine pExpr_substr_roundtrip fuel _ _ _ _ rest hk hini hmids hlast hne ?_
    simp only [needF] at hfuel
    omega
  | notW hwf =>
    rename_i f
    have hf1 : needF f + 1 ≤ fuel := by
      simpa [needF] using hfuel
    cases fuel with
    | zero => omega
    | succ g =>
      have hassoc : pfInnerChars (.notF f) ++ ')' :: rest =
          '!' :: '(' :: (pfInnerChars f ++ ')' :: ')' :: rest) := by
        simp [pfInnerChars]
      rw [hassoc]
      have hd : pExpr (g + 1)
          ('!' :: '(' :: (pfInnerChars f ++ ')' :: ')' :: rest)) =
          pNot (g + 1)
            ('!' :: '(' :: (pfInnerChars f ++ ')' :: ')' :: rest)) := by
        simp only [pExpr]
        simp
      rw [hd]
      simp only [pNot,
        show expectC ('!')
            ('!' :: '(' :: (pfInnerChars f ++ ')' :: ')' :: rest)) =
          .ok ('(' :: (pfInnerChars f ++ ')' :: ')' :: rest)) from by
            simp [expectC],
        show expectC ('(') ('(' :: (pfInnerChars f ++ ')' :: ')' :: rest)) =
          .ok (pfInnerChars f ++ ')' :: ')' :: rest) from by simp [expectC],
        pExpr_roundtrip g f (')' :: rest) hwf (by omega),
        show expectC (')') (')' :: ')' :: rest) = .ok (')' :: rest) from by
          simp [expectC]]
  | andW hwl hlen =>
    rename_i ops
    have hf1 : needL ops + 1 ≤ fuel := by
      simpa [needF] using hfuel
    cases fuel with
    | zero => omega
    | succ g =>
      have hassoc : pfInnerChars (.andF ops) ++ ')' :: rest =
          '&' :: (pflChars ops ++ ')' :: rest) := by
        simp [pfInnerChars]
      rw [hassoc]
      have hd : pExpr (g + 1) ('&' :: (pflChars ops ++ ')' :: rest)) =
          pComposite (g + 1) true ('&' :: (pflChars ops ++ ')' :: rest)) := by
        simp only [pExpr]
        simp
      rw [hd]
      simp only [pComposite, eq_self_iff_true, Bool.false_eq_true, if_true,
        if_false,
        show expectC ('&') ('&' :: (pflChars ops ++ ')' :: rest)) =
          .ok (pflChars ops ++ ')' :: rest) from by simp [expectC],
        pOperands_roundtrip g ops .nil rest hwl (by omega)
          (by simpa [PFilterList.appendL] using hlen),
        show (PFilterList.nil.appendL ops) = ops from rfl]
  | orW hwl hlen =>
    rename_i ops
    have hf1 : needL ops + 1 ≤ fuel := by
      simpa [needF] using hfuel
    cases fuel with
    | zero => omega
    | succ g =>
      have hassoc : pfInnerChars (.orF ops) ++ ')' :: rest =
          '|' :: (pflChars ops ++ ')' :: rest) := by
        simp [pfInnerChars]
      rw [hassoc]
      have hd : pExpr (g + 1) ('|' :: (pflChars ops ++ ')' :: rest)) =
          pComposite (g + 1) false ('|' :: (pflChars ops ++ ')' :: rest)) := by
        simp only [pExpr]
        simp
      rw [hd]
      simp only [pComposite, eq_self_iff_true, Bool.false_eq_true, if_true,
        if_false,
        show expectC ('|') ('|' :: (pflChars ops ++ ')' :: rest)) =
          .ok (pflChars ops ++ ')' :: rest) from by simp [expectC],
        pOperands_roundtrip g ops .nil rest hwl (by omega)
          (by simpa [PFilterList.appendL] using hlen),
        show (PFilterList.nil.appendL ops) = ops from rfl]
termination_by fuel

/-- The operand loop of `_parse_composite` parses the printed
operand list, appending to the already-accumulated operands. -/
theorem pOperands_roundtrip (fuel : Nat) (ops : PFilterList)
    (acc : PFilterList) (rest : List Char)
    (hw : WfL ops) (hfuel : needL ops ≤ fuel)
    (hlen : 2 ≤ (acc.appendL ops).len) :
    pOperands fuel (pflChars ops ++ ')' :: rest) acc =
      .ok (acc.appendL ops, ')' :: rest) := by
  cases hw with
  | nilW =>
    cases fuel with
    | zero => simp [needL] at hfuel
    | succ g =>
      rw [appendL_nil_right] at hlen ⊢
      simp only [pflChars, List.nil_append, pOperands]
      rw [if_neg (by simp), if_pos (by simp)]
      rw [if_neg (by omega)]
  | consW hwf hwl =>
    rename_i f fs
    have hf1 : needF f + needL fs + 1 ≤ fuel := by
      simpa [needL] using hfuel
    cases fuel with
    | zero => omega
    | succ g =>
      have hassoc : pflChars (.cons f fs) ++ ')' :: rest =
          '(' :: (pfInnerChars f ++ ')' :: (pflChars fs ++ ')' :: rest)) := by
        simp [pflChars]
      rw [hassoc]
      simp only [pOperands]
      rw [if_pos (by simp)]
      simp only [List.tail_cons,
        pExpr_roundtrip g f (pflChars fs ++ ')' :: rest) hwf (by omega),
        show expectC (')') (')' :: (pflChars fs ++ ')' :: rest)) =
          .ok (pflChars fs ++ ')' :: rest) from by simp [expectC],
        pOperands_roundtrip g fs (acc.snoc f) rest hwl (by omega)
          (by rw [snoc_appendL]; exact hlen)]
      rw [snoc_appendL]
termination_by fuel
end

/-! ### Parser soundness: every parsed filter is well-formed -/

/-- After an escape, `_parse_str` only accepts a special character,
which it prepends to the output. -/
theorem pStrAux_true_head (s : List Char) (out rem : List Char)
    (h : pStrAux true s = .ok (out, rem)) :
    ∃ d t, out = d :: t ∧ isSpecialChar d = true := by
  cases s with
  | nil => exact absurd h (by simp [pStrAux])
  | cons c r =>
    simp only [pStrAux] at h
    by_cases hc : isSpecialChar c = true
    · rw [if_pos hc] at h
      cases hx : pStrAux false r with
      | error e => rw [hx] at h; exact absurd h (by simp)
      | ok p =>
        obtain ⟨o, rm⟩ := p
        rw [hx] at h
        simp only [Except.ok.injEq, Prod.mk.injEq] at h
        exact ⟨c, o, h.1.symm, hc⟩
    · rw [if_neg hc] at h
      exact absurd h (by simp)

/-- A string scanned by `_parse_str` from a position whose character
is not `!` never begins with `!`: its first character is either the
input's first character or an escaped special character (and `!` is
not special). -/
theorem pStr_first (c : Char) (s out : List Char) (rem : List Char)
    (h : pStr (c :: s) = .ok (out, rem)) (hc : c ≠ '!')
    (hne : out ≠ []) : keyOk ⟨out⟩ = true := by
  simp only [pStr, pStrAux] at h
  by_cases hb : c = '\\'
  · rw [if_pos hb] at h
    obtain ⟨d, t, ho, hd⟩ := pStrAux_true_head s out rem h
    subst ho
    have hdq : d ≠ '!' := by
      intro hq; rw [hq] at hd; exact absurd hd (by decide)
    simp [keyOk, hdq]
  · rw [if_neg hb] at h
    by_cases hsp : isSpecialChar c = true
    · rw [if_pos hsp] at h
      simp only [Except.ok.injEq, Prod.mk.injEq] at h
      exact absurd h.1.symm hne
    · rw [if_neg hsp] at h
      cases hx : pStrAux false s with
      | error e => rw [hx] at h; exact absurd h (by simp)
      | ok p =>
        obtain ⟨o, rm⟩ := p
        rw [hx] at h
        simp only [Except.ok.injEq, Prod.mk.injEq] at h
        rw [← h.1]
        simp [keyOk, hc]

/-- `_parse_greater_and_less_than` yields well-formed comparison
nodes for any well-formed key. -/
theorem pGLTail_wf (isGt : Bool) (key : String) (s : List Char)
    (F : PFilter) (r : List Char)
    (h : pGLTail isGt key s = .ok (F, r)) (hk : keyOk key = true) :
    WfF F := by
  simp only [pGLTail] at h
  cases hx : pStr s with
  | error e => rw [hx] at h; exact absurd h (by simp)
  | ok p =>
    obtain ⟨v, s2⟩ := p
    simp only [hx] at h
    cases hy : pyInt ⟨v⟩ with
    | none => simp [hy] at h
    | some n =>
      cases isGt with
      | true =>
        simp only [hy, eq_self_iff_true, if_true, Except.ok.injEq,
          Prod.mk.injEq] at h
        rw [← h.1]
        exact .gtW hk
      | false =>
        simp only [hy, Bool.false_eq_true, if_false, Except.ok.injEq,
          Prod.mk.injEq] at h
        rw [← h.1]
        exact .ltW hk

/-- The wildcard loop of `_parse_equal` yields only well-formed
`Present`/`Substring` nodes: intermediate parts are checked
non-empty, and the all-empty pattern becomes `Present`. -/
theorem pSubstrLoop_wf (fuel : Nat) (key : String) (ini : Option String)
    (mids : List String) (s : List Char) (F : PFilter) (r : List Char)
    (h : pSubstrLoop fuel key ini mids s = .ok (F, r))
    (hk : keyOk key = true)
    (hini : ∀ x, ini = some x → x.data ≠ [])
    (hmids : ∀ x, x ∈ mids → x.data ≠ []) : WfF F := by
  induction fuel generalizing ini mids s with
  | zero => exact absurd h (by simp [pSubstrLoop])
  | succ g ih =>
    simp only [pSubstrLoop] at h
    cases hx : pStr s with
    | error e => simp [hx] at h
    | ok p =>
      obtain ⟨v, s2⟩ := p
      simp only [hx] at h
      by_cases hstar : s2.head? = some ('*')
      · rw [if_pos hstar] at h
        by_cases hv : v.isEmpty
        · rw [if_pos hv] at h
          exact absurd h (by simp)
        · rw [if_neg hv] at h
          refine ih _ _ _ h hini ?_
          intro x hx2
          rcases List.mem_append.mp hx2 with hm | hm
          · exact hmids x hm
          · rw [List.mem_singleton.mp hm]
            simpa [List.isEmpty_iff] using hv
      · rw [if_neg hstar] at h
        by_cases hall : ini = none ∧ mids = [] ∧
            (if v.isEmpty then (none : Option String) else some ⟨v⟩) = none
        · rw [if_pos hall] at h
          simp only [Except.ok.injEq, Prod.mk.injEq] at h
          rw [← h.1]
          exact .presentW hk
        · rw [if_neg hall] at h
          simp only [Except.ok.injEq, Prod.mk.injEq] at h
          rw [← h.1]
          refine .substrW hk hini hmids ?_ hall
          intro x hx2
          by_cases hv : v.isEmpty
          · rw [if_pos hv] at hx2
            exact absurd hx2 (by simp)
          · rw [if_neg hv] at hx2
            have : (⟨v⟩ : String) = x := by
              simpa using hx2
            rw [← this]
            simpa [List.isEmpty_iff] using hv

/-- `_parse_equal` yields only well-formed nodes: a plain value is
checked non-empty, and the wildcard path is covered above. -/
theorem pEqualTail_wf (fuel : Nat) (key : String) (s : List Char)
    (F : PFilter) (r : List Char)
    (h : pEqualTail fuel key s = .ok (F, r)) (hk : keyOk key = true) :
    WfF F := by
  simp only [pEqualTail] at h
  cases hx : pStr s with
  | error e => simp [hx] at h
  | ok p =>
    obtain ⟨v, s2⟩ := p
    simp only [hx] at h
    by_cases hstar : s2.head? = some ('*')
    · rw [if_pos hstar] at h
      refine pSubstrLoop_wf fuel key _ [] s2.tail F r h hk ?_ (by simp)
      intro x hx2
      by_cases hv : v.isEmpty
      · rw [if_pos hv] at hx2
        exact absurd hx2 (by simp)
      · rw [if_neg hv] at hx2
        have : (⟨v⟩ : String) = x := by simpa using hx2
        rw [← this]
        simpa [List.isEmpty_iff] using hv
    · rw [if_neg hstar] at h
      by_cases hv : v.isEmpty
      · rw [if_pos hv] at h
        exact absurd h (by simp)
      · rw [if_neg hv] at h
        simp only [Except.ok.injEq, Prod.mk.injEq] at h
        rw [← h.1]
        refine .eqW hk ?_
        simpa [List.isEmpty_iff] using hv

/-- `_parse_simple` yields only well-formed leaf nodes when entered
at a position whose character is not `!` (as the dispatcher
guarantees). -/
theorem pSimple_wf (fuel : Nat) (c : Char) (s : List Char)
    (F : PFilter) (r : List Char)
    (h : pSimple fuel (c :: s) = .ok (F, r)) (hc : c ≠ '!') :
    WfF F := by
  simp only [pSimple] at h
  cases hx : pStr (c :: s) with
  | error e => simp [hx] at h
  | ok p =>
    obtain ⟨k, s2⟩ := p
    simp only [hx] at h
    by_cases hke : k.isEmpty
    · rw [if_pos hke] at h
      exact absurd h (by simp)
    · rw [if_neg hke] at h
      have hk : keyOk ⟨k⟩ = true := by
        refine pStr_first c s k s2 hx hc ?_
        simpa [List.isEmpty_iff] using hke
      by_cases h1 : s2.head? = some ('=')
      · rw [if_pos h1] at h
        exact pEqualTail_wf fuel ⟨k⟩ s2.tail F r h hk
      · rw [if_neg h1] at h
        by_cases h2 : s2.head? = some ('>')
        · rw [if_pos h2] at h
          exact pGLTail_wf true ⟨k⟩ s2.tail F r h hk
        · rw [if_neg h2] at h
          by_cases h3 : s2.head? = some ('<')
          · rw [if_pos h3] at h
            exact pGLTail_wf false ⟨k⟩ s2.tail F r h hk
          · rw [if_neg h3] at h
            exact absurd h (by simp)

/-- Appending a well-formed filter keeps an operand list
well-formed. -/
theorem WfL_snoc : ∀ (l : PFilterList) (f : PFilter),
    WfL l → WfF f → WfL (l.snoc f)
  | .nil, f, _, hf => .consW hf .nilW
  | .cons g gs, f, h, hf =>
    match h with
    | .consW h1 h2 => .consW h1 (WfL_snoc gs f h2 hf)

mutual
/-- Parser soundness: every filter produced by `_parse` is
well-formed (`WfF`). -/
theorem pExpr_wf (fuel : Nat) (s : List Char) (F : PFilter)
    (r : List Char) (h : pExpr fuel s = .ok (F, r)) : WfF F := by
  cases s with
  | nil => exact absurd h (by simp [pExpr])
  | cons c s2 =>
    simp only [pExpr] at h
    by_cases h1 : c = '&'
    · rw [if_pos h1] at h
      exact pComposite_wf fuel true (c :: s2) F r h
    · rw [if_neg h1] at h
      by_cases h2 : c = '|'
      · rw [if_pos h2] at h
        exact pComposite_wf fuel false (c :: s2) F r h
      · rw [if_neg h2] at h
        by_cases h3 : c = '!'
        · rw [if_pos h3] at h
          exact pNot_wf fuel (c :: s2) F r h
        · rw [if_neg h3] at h
          exact pSimple_wf fuel c s2 F r h h3
termination_by (fuel, 1)

/-- `_parse_not` soundness. -/
theorem pNot_wf (fuel : Nat) (s : List Char) (F : PFilter)
    (r : List Char) (h : pNot fuel s = .ok (F, r)) : WfF F := by
  cases fuel with
  | zero => exact absurd h (by simp [pNot])
  | succ g =>
    simp only [pNot] at h
    cases h1 : expectC ('!') s with
    | error e => simp [h1] at h
    | ok s2 =>
      simp only [h1] at h
      cases h2 : expectC ('(') s2 with
      | error e => simp [h2] at h
      | ok s3 =>
        simp only [h2] at h
        cases h3 : pExpr g s3 with
        | error e => simp [h3] at h
        | ok p =>
          obtain ⟨f, s4⟩ := p
          simp only [h3] at h
          cases h4 : expectC (')') s4 with
          | error e => simp [h4] at h
          | ok s5 =>
            simp only [h4, Except.ok.injEq, Prod.mk.injEq] at h
            rw [← h.1]
            exact .notW (pExpr_wf g s3 f s4 h3)
termination_by (fuel, 0)

/-- `_parse_composite` soundness. -/
theorem pComposite_wf (fuel : Nat) (isAnd : Bool) (s : List Char)
    (F : PFilter) (r : List Char)
    (h : pComposite fuel isAnd s = .ok (F, r)) : WfF F := by
  cases fuel with
  | zero => exact absurd h (by simp [pComposite])
  | succ g =>
    simp only [pComposite] at h
    cases h1 : expectC (if isAnd then '&' else '|') s with
    | error e => simp [h1] at h
    | ok s2 =>
      simp only [h1] at h
      cases h2 : pOperands g s2 .nil with
      | error e => simp [h2] at h
      | ok p =>
        obtain ⟨ops, s3⟩ := p
        have hops := pOperands_wf g s2 .nil ops s3 h2 .nilW
        cases isAnd with
        | true =>
          simp only [h2, eq_self_iff_true, if_true, Except.ok.injEq,
            Prod.mk.injEq] at h
          rw [← h.1]
          exact .andW hops.1 hops.2
        | false =>
          simp only [h2, Bool.false_eq_true, if_false, Except.ok.injEq,
            Prod.mk.injEq] at h
          rw [← h.1]
          exact .orW hops.1 hops.2
termination_by (fuel, 0)

/-- Operand-loop soundness: starting from a well-formed accumulator,
a successful run returns a well-formed list of at least two
operands. -/
theorem pOperands_wf (fuel : Nat) (s : List Char) (acc : PFilterList)
    (ops : PFilterList) (r : List Char)
    (h : pOperands fuel s acc = .ok (ops, r)) (hacc : WfL acc) :
    WfL ops ∧ 2 ≤ ops.len := by
  cases fuel with
  | zero => exact absurd h (by simp [pOperands])
  | succ g =>
    simp only [pOperands] at h
    by_cases h1 : s.head? = some ('(')
    · rw [if_pos h1] at h
      cases h2 : pExpr g s.tail with
      | error e => simp [h2] at h
      | ok p =>
        obtain ⟨f, s3⟩ := p
        simp only [h2] at h
        cases h3 : expectC (')') s3 with
        | error e => simp [h3] at h
        | ok s4 =>
          simp only [h3] at h
          exact pOperands_wf g s4 (acc.snoc f) ops r h
            (WfL_snoc acc f hacc (pExpr_wf g s.tail f s3 h2))
    · rw [if_neg h1] at h
      by_cases h2 : s.head? = some (')')
      · rw [if_pos h2] at h
        by_cases h3 : acc.len < 2
        · rw [if_pos h3] at h
          exact absurd h (by simp)
        · rw [if_neg h3] at h
          simp only [Except.ok.injEq, Prod.mk.injEq] at h
          rw [← h.1]
          exact ⟨hacc, by omega⟩
      · rw [if_neg h2] at h
        exact absurd h (by simp)
termination_by (fuel, 0)
end

/-! ### Fuel bound: the input length suffices for `parse` -/

theorem midsChars_len (ms : List String) :
    ms.length ≤ (midsChars ms).length := by
  induction ms with
  | nil => simp [midsChars]
  | cons v vs ih =>
    simp only [midsChars, List.length_append, List.length_cons,
      List.length_cons]
    omega

mutual
/-- The fuel needed to reparse a printed filter is bounded by the
length of its printed body plus one. -/
theorem needF_le : ∀ F : PFilter, needF F ≤ (pfInnerChars F).length + 1
  | .eqF k v => by
    simp only [needF, pfInnerChars, List.length_append, List.length_cons]
    omega
  | .gtF k n => by
    simp only [needF, pfInnerChars, List.length_append, List.length_cons]
    omega
  | .ltF k n => by
    simp only [needF, pfInnerChars, List.length_append, List.length_cons]
    omega
  | .presentF k => by
    simp only [needF, pfInnerChars, List.length_append, List.length_cons,
      List.length_nil]
    omega
  | .substrF k ini mids lastS => by
    have hm := midsChars_len mids
    cases ini <;> cases lastS <;>
      (simp only [needF, pfInnerChars, List.length_append,
        List.length_cons, List.length_nil]; omega)
  | .notF f => by
    have := needF_le f
    simp only [needF, pfInnerChars, List.length_cons, List.length_append,
      List.length_nil]
    omega
  | .andF ops => by
    have := needL_le ops
    simp only [needF, pfInnerChars, List.length_cons]
    omega
  | .orF ops => by
    have := needL_le ops
    simp only [needF, pfInnerChars, List.length_cons]
    omega
theorem needL_le : ∀ l : PFilterList, needL l ≤ (pflChars l).length + 1
  | .nil => by simp [needL, pflChars]
  | .cons f fs => by
    have h1 := needF_le f
    have h2 := needL_le fs
    simp only [needL, pflChars, List.length_cons, List.length_append]
    omega
end

/-- Everything `parse` accepts is well-formed. -/
theorem parseFilter_sound (s : String) (F : PFilter)
    (h : parseFilter s = .ok F) : WfF F := by
  simp only [parseFilter] at h
  cases h1 : expectC ('(') s.data with
  | error e => simp [h1] at h
  | ok s1 =>
    simp only [h1] at h
    cases h2 : pExpr s1.length s1 with
    | error e => simp [h2] at h
    | ok p =>
      obtain ⟨f, s2⟩ := p
      simp only [h2] at h
      cases h3 : expectC (')') s2 with
      | error e => simp [h3] at h
      | ok s3 =>
        simp only [h3] at h
        by_cases h4 : s3.isEmpty
        · rw [if_pos h4] at h
          simp only [Except.ok.injEq] at h
          rw [← h]
          exact pExpr_wf s1.length s1 f s2 h2
        · rw [if_neg h4] at h
          exact absurd h (by simp)

/-- `parse` accepts the printed form of any well-formed filter and
returns the same filter (the fuel equal to the remaining input
length suffices by the bound above). -/
theorem parseFilter_print (F : PFilter) (hw : WfF F) :
    parseFilter (pfToString F) = .ok F := by
  have hdata : (pfToString F).data = '(' :: (pfInnerChars F ++ [')']) := rfl
  have h2 := pExpr_roundtrip ((pfInnerChars F ++ [')']).length) F [] hw
    (le_trans (needF_le F) (by simp))
  simp only [parseFilter, hdata,
    show expectC ('(') ('(' :: (pfInnerChars F ++ [')'])) =
      .ok (pfInnerChars F ++ [')']) from by simp [expectC],
    h2,
    show expectC (')') (')' :: ([] : List Char)) = .ok [] from by
      simp [expectC],
    List.isEmpty_nil, if_true]

/-- C9: for every filter F accepted by the parser, printing F and
parsing the result yields F again (hence a filter `==`-equal to F,
since `Filter.__eq__` compares printed forms), and evaluating F
twice on the same property map yields the same result. -/
theorem filter_c9_roundtrip (s : String) (F : PFilter)
    (h : parseFilter s = .ok F) :
    parseFilter (pfToString F) = .ok F ∧ pfPyEq F F = true ∧
      ∀ props : Props, matchF F props = matchF F props := by
  refine ⟨parseFilter_print F (parseFilter_sound s F h), ?_, fun _ => rfl⟩
  simp [pfPyEq]

/-- Witness for C9 at the concrete input `(&(a=x)(b=y))`. -/
theorem filter_c9_witness :
    parseFilter (pfToString (.andF (.cons (.eqF ("a") ("x"))
      (.cons (.eqF ("b") ("y")) .nil)))) =
      .ok (.andF (.cons (.eqF ("a") ("x"))
        (.cons (.eqF ("b") ("y")) .nil))) :=
  (filter_c9_roundtrip
    ⟨['(', '&', '(', 'a', '=', 'x', ')', '(', 'b', '=', 'y', ')', ')']⟩
    (.andF (.cons (.eqF ("a") ("x")) (.cons (.eqF ("b") ("y")) .nil)))
    (by simp [parseFilter, pExpr, pComposite, pOperands, pSimple, pEqualTail,
      pStr, pStrAux, expectC, isSpecialChar, PFilterList.snoc,
      PFilterList.len])).1

/-- C6 counterexample: an `Equal` node with filter string `17`
matches a property whose value is the integer `17` (because
`Equal.compare` converts non-string values with `str()`), refuting
the claim that string-valued comparisons never match integer
values; moreover `Substring.match` raises `TypeError` on an integer
value (modelled `none`), refuting unconditional totality. -/
theorem filter_c6_counterexample :
    matchF (.eqF ("k") ("17")) [(("k"), [PropValue.int 17])] = some true ∧
    matchF (.substrF ("k") (some ("1")) [] none)
      [(("k"), [PropValue.int 17])] = none := by
  constructor
  · rfl
  · rfl

/-- C6 (amended): comparison evaluation is total; `Equal` matches a
string value exactly when the filter string equals it (character
equality, hence case-sensitive) and matches an integer value exactly
when the filter string equals its `str()` decimal form; `GreaterThan`
and `LessThan` match only integer values, under the integer order. -/
theorem filter_c6_eval :
    (∀ (k v : String) (p : Props) (vs : List PropValue),
      alGet k p = some vs →
      (matchF (.eqF k v) p = some true ↔
        (∃ s, PropValue.str s ∈ vs ∧ v = s) ∨
        (∃ i, PropValue.int i ∈ vs ∧ v = pyIntStr i))) ∧
    (∀ (k : String) (n : Int) (p : Props) (vs : List PropValue),
      alGet k p = some vs →
      ((matchF (.gtF k n) p = some true ↔
          ∃ i, PropValue.int i ∈ vs ∧ n < i) ∧
       (matchF (.ltF k n) p = some true ↔
          ∃ i, PropValue.int i ∈ vs ∧ i < n))) ∧
    (∀ (k v : String) (n : Int) (p : Props),
      (matchF (.eqF k v) p).isSome ∧ (matchF (.gtF k n) p).isSome ∧
      (matchF (.ltF k n) p).isSome ∧ (matchF (.presentF k) p).isSome) := by
  refine ⟨?_, ?_, ?_⟩
  · intro k v p vs hvs
    simp only [matchF, anyCompare, hvs, Option.some_inj, List.any_eq_true]
    constructor
    · rintro ⟨x, hx, hcmp⟩
      cases x with
      | str s =>
        left
        exact ⟨s, hx, by simpa [equalCompare] using hcmp⟩
      | int i =>
        right
        exact ⟨i, hx, by simpa [equalCompare] using hcmp⟩
    · rintro (⟨s, hs, hv⟩ | ⟨i, hi, hv⟩)
      · exact ⟨.str s, hs, by simp [equalCompare, hv]⟩
      · exact ⟨.int i, hi, by simp [equalCompare, hv]⟩
  · intro k n p vs hvs
    constructor
    · simp only [matchF, anyCompare, hvs, Option.some_inj, List.any_eq_true]
      constructor
      · rintro ⟨x, hx, hcmp⟩
        cases x with
        | str s => simp [gtCompare] at hcmp
        | int i => exact ⟨i, hx, by simpa [gtCompare] using hcmp⟩
      · rintro ⟨i, hi, hlt⟩
        exact ⟨.int i, hi, by simp [gtCompare, hlt]⟩
    · simp only [matchF, anyCompare, hvs, Option.some_inj, List.any_eq_true]
      constructor
      · rintro ⟨x, hx, hcmp⟩
        cases x with
        | str s => simp [ltCompare] at hcmp
        | int i => exact ⟨i, hx, by simpa [ltCompare] using hcmp⟩
      · rintro ⟨i, hi, hlt⟩
        exact ⟨.int i, hi, by simp [ltCompare, hlt]⟩
  · intro k v n p
    refine ⟨?_, ?_, ?_, ?_⟩ <;> simp [matchF]

/-- Witness for the amended C6 at concrete inputs. -/
theorem filter_c6_witness :
    matchF (.eqF ("k") ("a")) [(("k"), [PropValue.str ("a")])] = some true :=
  (filter_c6_eval.1 ("k") ("a") [(("k"), [PropValue.str ("a")])]
    [PropValue.str ("a")] rfl).mpr (Or.inl ⟨("a"), by simp, rfl⟩)

/-! ## Resource management (`sd.py` `Consumer`/`ResourceManager`)

Counts are modelled as integers, matching Python's unbounded `int`
(so the `assert used >= 0` after a decrement is an honest test).
Exceptions are modelled as an error component next to the mutated
state, since mutations preceding a `raise` persist. -/

theorem alGet_alPut_same {κ α : Type} [DecidableEq κ] (k : κ) (v : α)
    (l : List (κ × α)) : alGet k (alPut k v l) = some v := by
  induction l with
  | nil => simp [alGet, alPut]
  | cons p rest ih =>
    obtain ⟨k', v'⟩ := p
    by_cases h : k' = k
    · simp [alPut, alGet, h]
    · simp [alPut, alGet, h, ih]

theorem alGet_alPut_ne {κ α : Type} [DecidableEq κ] (k k' : κ) (v : α)
    (l : List (κ × α)) (h : k ≠ k') :
    alGet k' (alPut k v l) = alGet k' l := by
  induction l with
  | nil => simp [alGet, alPut, h]
  | cons p rest ih =>
    obtain ⟨k2, v2⟩ := p
    by_cases h2 : k2 = k
    · subst h2
      simp [alPut, alGet, h]
    · simp only [alPut, if_neg h2, alGet]
      by_cases h3 : k2 = k'
      · simp [h3]
      · simp [h3, ih]

theorem alGet_alDel_same {κ α : Type} [DecidableEq κ] (k : κ)
    (l : List (κ × α)) (h : (l.map Prod.fst).Nodup) :
    alGet k (alDel k l) = none := by
  induction l with
  | nil => simp [alGet, alDel]
  | cons p rest ih =>
    obtain ⟨k', v'⟩ := p
    simp only [List.map_cons, List.nodup_cons] at h
    by_cases h2 : k' = k
    · subst h2
      simp only [alDel, if_pos rfl]
      clear ih
      induction rest with
      | nil => simp [alGet]
      | cons q qrest ih2 =>
        obtain ⟨k2, v2⟩ := q
        simp only [List.mem_map] at h
        have hk2 : k2 ≠ k' := by
          intro he
          exact h.1 ⟨(k2, v2), by simp [he]⟩
        simp only [alGet, if_neg hk2]
        refine ih2 ⟨?_, h.2.of_cons⟩
        intro hm
        exact h.1 (by
          obtain ⟨x, hx1, hx2⟩ := List.mem_map.mp hm
          exact ⟨x, List.mem_cons_of_mem _ hx1, hx2⟩)
    · simp only [alDel, if_neg h2, alGet, if_neg h2]
      exact ih h.2

theorem alGet_alDel_ne {κ α : Type} [DecidableEq κ] (k k' : κ)
    (l : List (κ × α)) (h : k ≠ k') :
    alGet k' (alDel k l) = alGet k' l := by
  induction l with
  | nil => simp [alDel]
  | cons p rest ih =>
    obtain ⟨k2, v2⟩ := p
    by_cases h2 : k2 = k
    · subst h2
      simp [alDel, alGet, h]
    · simp only [alDel, if_neg h2, alGet]
      by_cases h3 : k2 = k'
      · simp [h3]
      · simp [h3, ih]

theorem mem_alPut {κ α : Type} [DecidableEq κ] {x : κ × α} (k : κ)
    (v : α) (l : List (κ × α)) (h : x ∈ alPut k v l) :
    x ∈ l ∨ x = (k, v) := by
  revert h
  induction l with
  | nil =>
    intro h
    simp only [alPut, List.mem_singleton] at h
    exact Or.inr h
  | cons p rest ih =>
    intro h
    obtain ⟨k', v'⟩ := p
    by_cases h2 : k' = k
    · subst h2
      simp only [alPut, if_pos rfl] at h
      cases h with
      | head => exact Or.inr rfl
      | tail b h => exact Or.inl (List.mem_cons_of_mem _ h)
    · simp only [alPut, if_neg h2] at h
      cases h with
      | head => exact Or.inl (List.mem_cons_self _ _)
      | tail b h =>
        cases ih h with
        | inl h3 => exact Or.inl (List.mem_cons_of_mem _ h3)
        | inr h3 => exact Or.inr h3

theorem alPut_keys_nodup {κ α : Type} [DecidableEq κ] (k : κ) (v : α)
    (l : List (κ × α)) (h : (l.map Prod.fst).Nodup) :
    ((alPut k v l).map Prod.fst).Nodup := by
  induction l with
  | nil => simp [alPut]
  | cons p rest ih =>
    obtain ⟨k', v'⟩ := p
    simp only [List.map_cons, List.nodup_cons] at h
    by_cases h2 : k' = k
    · subst h2
      simpa [alPut] using h
    · simp only [alPut, if_neg h2, List.map_cons, List.nodup_cons]
      refine ⟨?_, ih h.2⟩
      intro hm
      obtain ⟨x, hx1, hx2⟩ := List.mem_map.mp hm
      rcases mem_alPut k v rest hx1 with hmem | heq
      · exact h.1 (List.mem_map.mpr ⟨x, hmem, hx2⟩)
      · rw [heq] at hx2
        exact h2 hx2.symm

theorem alDel_sublist {κ α : Type} [DecidableEq κ] (k : κ)
    (l : List (κ × α)) : (alDel k l).Sublist l := by
  induction l with
  | nil => simp [alDel]
  | cons p rest ih =>
    obtain ⟨k', v'⟩ := p
    by_cases h2 : k' = k
    · simp only [alDel, if_pos h2]
      exact (List.sublist_cons_self _ _)
    · simp only [alDel, if_neg h2]
      exact ih.cons₂ _

theorem alDel_keys_nodup {κ α : Type} [DecidableEq κ] (k : κ)
    (l : List (κ × α)) (h : (l.map Prod.fst).Nodup) :
    ((alDel k l).map Prod.fst).Nodup :=
  ((alDel_sublist k l).map Prod.fst).nodup h

/-- Sum of `f` over an association list's values (`total`). -/
def alSum {κ α : Type} (f : α → Int) (l : List (κ × α)) : Int :=
  (l.map (fun p => f p.2)).sum

theorem alSum_alPut_present {κ α : Type} [DecidableEq κ] (f : α → Int)
    (k : κ) (v : α) (l : List (κ × α)) (c : α)
    (h : alGet k l = some c) :
    alSum f (alPut k v l) = alSum f l - f c + f v := by
  induction l with
  | nil => simp [alGet] at h
  | cons p rest ih =>
    obtain ⟨k2, v2⟩ := p
    by_cases h2 : k2 = k
    · simp only [alGet, if_pos h2, Option.some_inj] at h
      subst h
      simp only [alPut, if_pos h2, alSum, List.map_cons, List.sum_cons]
      ring
    · simp only [alGet, if_neg h2] at h
      simp only [alPut, if_neg h2, alSum, List.map_cons, List.sum_cons]
      have := ih h
      simp only [alSum] at this
      rw [this]
      ring

theorem alSum_alPut_absent {κ α : Type} [DecidableEq κ] (f : α → Int)
    (k : κ) (v : α) (l : List (κ × α)) (h : alGet k l = none) :
    alSum f (alPut k v l) = alSum f l + f v := by
  induction l with
  | nil => simp [alPut, alSum]
  | cons p rest ih =>
    obtain ⟨k2, v2⟩ := p
    by_cases h2 : k2 = k
    · simp [alGet, if_pos h2] at h
    · simp only [alGet, if_neg h2] at h
      simp only [alPut, if_neg h2, alSum, List.map_cons, List.sum_cons]
      have := ih h
      simp only [alSum] at this
      rw [this]
      ring

theorem alSum_alDel {κ α : Type} [DecidableEq κ] (f : α → Int)
    (k : κ) (l : List (κ × α)) (c : α) (h : alGet k l = some c) :
    alSum f (alDel k l) = alSum f l - f c := by
  induction l with
  | nil => simp [alGet] at h
  | cons p rest ih =>
    obtain ⟨k2, v2⟩ := p
    by_cases h2 : k2 = k
    · simp only [alGet, if_pos h2, Option.some_inj] at h
      subst h
      simp only [alDel, if_pos h2, alSum, List.map_cons, List.sum_cons]
      ring
    · simp only [alGet, if_neg h2] at h
      simp only [alDel, if_neg h2, alSum, List.map_cons, List.sum_cons]
      have := ih h
      simp only [alSum] at this
      rw [this]
      ring

/-- `ResourceType`. -/
inductive RType where
  | client
  | subscription
  | service
deriving DecidableEq, Repr

/-- Exceptions of the resource subsystem: `ResourceError`,
`KeyError` (from `self.consumers[user_id]`), and a failed
`assert`. -/
inductive RErr where
  | resource
  | key
  | assertFail
deriving DecidableEq, Repr

/-- A `resources()` dict with all three entries present (counts). -/
structure Counts where
  cli : Int
  sub : Int
  srv : Int
deriving DecidableEq, Repr

def Counts.get : Counts → RType → Int
  | c, .client => c.cli
  | c, .subscription => c.sub
  | c, .service => c.srv

def Counts.set : Counts → RType → Int → Counts
  | c, .client, n => { c with cli := n }
  | c, .subscription, n => { c with sub := n }
  | c, .service, n => { c with srv := n }

def Counts.zero : Counts := ⟨0, 0, 0⟩

/-- `Consumer.has_allocations`. -/
def Counts.hasAllocations (c : Counts) : Bool :=
  0 < c.cli ∨ 0 < c.sub ∨ 0 < c.srv

/-- A `resources()` dict used as limits (`None` = unlimited). -/
structure Caps where
  cli : Option Int
  sub : Option Int
  srv : Option Int
deriving DecidableEq, Repr

def Caps.get : Caps → RType → Option Int
  | c, .client => c.cli
  | c, .subscription => c.sub
  | c, .service => c.srv

/-- `ResourceManager` state: the per-user and total limits plus the
`consumers` dict, mapping user ids to their used counts (the
`Consumer` objects). -/
structure RM where
  maxUser : Caps
  maxTotal : Caps
  consumers : List (String × Counts)
deriving DecidableEq, Repr

/-- `ResourceManager.total(resource_type)`. -/
def rmTotal (rm : RM) (t : RType) : Int :=
  alSum (fun c => c.get t) rm.consumers

/-- `ResourceManager.check_total(resource_type)`. -/
def checkTotal (rm : RM) (t : RType) : Option RErr :=
  match rm.maxTotal.get t with
  | some l => if l = rmTotal rm t then some .resource else none
  | none => none

/-- `Consumer.allocate(resource_type)`: raise when the per-user cap
is reached, else increment. -/
def consAllocate (cap : Option Int) (c : Counts) (t : RType) :
    Except RErr Counts :=
  match cap with
  | some m =>
    if c.get t = m then .error .resource
    else .ok (c.set t (c.get t + 1))
  | none => .ok (c.set t (c.get t + 1))

/-- `ResourceManager.allocate(user_id, resource_type)`: global check,
get-or-create the consumer (the newly created empty consumer stays in
the dict even if the per-user check then raises), then allocate. -/
def rmAllocate (user : String) (t : RType) (rm : RM) :
    RM × Option RErr :=
  match checkTotal rm t with
  | some e => (rm, some e)
  | none =>
    let cons1 := match alGet user rm.consumers with
                 | some _ => rm.consumers
                 | none => alPut user Counts.zero rm.consumers
    let c := (alGet user cons1).getD Counts.zero
    match consAllocate (rm.maxUser.get t) c t with
    | .error e => ({ rm with consumers := cons1 }, some e)
    | .ok c2 => ({ rm with consumers := alPut user c2 cons1 }, none)

/-- `ResourceManager.deallocate(user_id, resource_type)`: decrement
(the decrement precedes the `assert`, and a consumer left without
allocations is removed from the dict). -/
def rmDeallocate (user : String) (t : RType) (rm : RM) :
    RM × Option RErr :=
  match alGet user rm.consumers with
  | none => (rm, some .key)
  | some c =>
    let c2 := c.set t (c.get t - 1)
    if c2.get t < 0 then
      ({ rm with consumers := alPut user c2 rm.consumers },
        some .assertFail)
    else if c2.hasAllocations then
      ({ rm with consumers := alPut user c2 rm.consumers }, none)
    else
      ({ rm with consumers := alDel user rm.consumers }, none)

/-- `ResourceManager.transfer(from_user_id, to_user_id,
resource_type)`: deallocate first, then allocate under the new
owner; a `ResourceError` from the allocation is caught, the old
allocation restored, and the error re-raised. -/
def rmTransfer (fromU toU : String) (t : RType) (rm : RM) :
    RM × Option RErr :=
  match rmDeallocate fromU t rm with
  | (rm1, some e) => (rm1, some e)
  | (rm1, none) =>
    match rmAllocate toU t rm1 with
    | (rm2, none) => (rm2, none)
    | (rm2, some e) =>
      match e with
      | .resource =>
        match rmAllocate fromU t rm2 with
        | (rm3, none) => (rm3, some .resource)
        | (rm3, some e2) => (rm3, some e2)
      | _ => (rm2, some e)

/-- The externally observable per-user count (0 for an absent
consumer, as deallocation removes empty consumers). -/
def userCount (rm : RM) (u : String) (t : RType) : Int :=
  match alGet u rm.consumers with
  | some c => c.get t
  | none => 0

theorem Counts.get_set_same (c : Counts) (t : RType) (n : Int) :
    (c.set t n).get t = n := by
  cases t <;> rfl

theorem Counts.get_set_ne (c : Counts) (t ty : RType) (n : Int)
    (h : ty ≠ t) : (c.set t n).get ty = c.get ty := by
  cases t <;> cases ty <;> first | rfl | exact absurd rfl h

theorem Counts.zero_get (ty : RType) : Counts.zero.get ty = 0 := by
  cases ty <;> rfl

theorem Counts.set_get_self (c : Counts) (t : RType) :
    c.set t (c.get t) = c := by
  cases c; cases t <;> rfl

theorem Counts.set_set (c : Counts) (t : RType) (a b : Int) :
    (c.set t a).set t b = c.set t b := by
  cases c; cases t <;> rfl

/-- Effect of `ResourceManager.allocate` when the global check
passes: either it succeeds, incrementing exactly the target user's
count of the target type (and the global total), or it fails with a
`ResourceError` because the user's count already equals the per-user
cap, leaving every count unchanged. -/
theorem rmAllocate_effect (user : String) (t : RType) (rm : RM)
    (hct : checkTotal rm t = none)
    (hnd : (rm.consumers.map Prod.fst).Nodup) :
    ((rmAllocate user t rm).2 = none ∧
      (∀ u ty, userCount (rmAllocate user t rm).1 u ty =
        userCount rm u ty +
          (if u = user ∧ ty = t then 1 else 0)) ∧
      (∀ ty, rmTotal (rmAllocate user t rm).1 ty =
        rmTotal rm ty + (if ty = t then 1 else 0)) ∧
      (((rmAllocate user t rm).1.consumers.map Prod.fst).Nodup)) ∨
    ((rmAllocate user t rm).2 = some .resource ∧
      (∃ m, rm.maxUser.get t = some m ∧ userCount rm user t = m) ∧
      (∀ u ty, userCount (rmAllocate user t rm).1 u ty =
        userCount rm u ty) ∧
      (∀ ty, rmTotal (rmAllocate user t rm).1 ty = rmTotal rm ty) ∧
      (((rmAllocate user t rm).1.consumers.map Prod.fst).Nodup)) := by
  cases hu : alGet user rm.consumers with
  | some cu =>
    have hcnt : userCount rm user t = cu.get t := by
      simp [userCount, hu]
    cases hm : rm.maxUser.get t with
    | some m =>
      by_cases hcap : cu.get t = m
      · right
        simp only [rmAllocate, hct, hu, Option.getD_some, consAllocate,
          hm, if_pos hcap]
        refine ⟨trivial, ⟨m, rfl, by rw [hcnt, hcap]⟩, ?_, ?_, hnd⟩
        · intro u ty
          simp [userCount]
        · intro ty
          simp [rmTotal]
      · left
        simp only [rmAllocate, hct, hu, Option.getD_some, consAllocate,
          hm, if_neg hcap]
        refine ⟨trivial, ?_, ?_, alPut_keys_nodup _ _ _ hnd⟩
        · intro u ty
          by_cases huu : u = user
          · subst huu
            simp only [userCount, alGet_alPut_same, hu]
            by_cases hty : ty = t
            · subst hty
              simp [Counts.get_set_same]
            · simp [Counts.get_set_ne _ _ _ _ hty, hty]
          · simp only [userCount,
              alGet_alPut_ne _ _ _ _ (fun he => huu he.symm)]
            simp [huu]
        · intro ty
          simp only [rmTotal]
          rw [alSum_alPut_present _ _ _ _ _ hu]
          by_cases hty : ty = t
          · subst hty
            simp [Counts.get_set_same]
            ring
          · simp [Counts.get_set_ne _ _ _ _ hty, hty]
    | none =>
      left
      simp only [rmAllocate, hct, hu, Option.getD_some, consAllocate, hm]
      refine ⟨trivial, ?_, ?_, alPut_keys_nodup _ _ _ hnd⟩
      · intro u ty
        by_cases huu : u = user
        · subst huu
          simp only [userCount, alGet_alPut_same, hu]
          by_cases hty : ty = t
          · subst hty
            simp [Counts.get_set_same]
          · simp [Counts.get_set_ne _ _ _ _ hty, hty]
        · simp only [userCount,
            alGet_alPut_ne _ _ _ _ (fun he => huu he.symm)]
          simp [huu]
      · intro ty
        simp only [rmTotal]
        rw [alSum_alPut_present _ _ _ _ _ hu]
        by_cases hty : ty = t
        · subst hty
          simp [Counts.get_set_same]
          ring
        · simp [Counts.get_set_ne _ _ _ _ hty, hty]
  | none =>
    have hcnt : userCount rm user t = 0 := by
      simp [userCount, hu]
    have hget1 : alGet user (alPut user Counts.zero rm.consumers) =
        some Counts.zero := alGet_alPut_same _ _ _
    cases hm : rm.maxUser.get t with
    | some m =>
      by_cases hcap : Counts.zero.get t = m
      · right
        simp only [rmAllocate, hct, hu, hget1, Option.getD_some,
          consAllocate, hm, if_pos hcap]
        refine ⟨trivial, ⟨m, rfl, by rw [hcnt, ← hcap, Counts.zero_get]⟩,
          ?_, ?_, alPut_keys_nodup _ _ _ hnd⟩
        · intro u ty
          by_cases huu : u = user
          · subst huu
            simp [userCount, hget1, hu, Counts.zero_get]
          · simp only [userCount,
              alGet_alPut_ne _ _ _ _ (fun he => huu he.symm)]
        · intro ty
          simp only [rmTotal]
          rw [alSum_alPut_absent _ _ _ _ hu]
          simp [Counts.zero_get]
      · left
        simp only [rmAllocate, hct, hu, hget1, Option.getD_some,
          consAllocate, hm, if_neg hcap]
        refine ⟨trivial, ?_, ?_,
          alPut_keys_nodup _ _ _ (alPut_keys_nodup _ _ _ hnd)⟩
        · intro u ty
          by_cases huu : u = user
          · subst huu
            simp only [userCount, alGet_alPut_same, hu]
            by_cases hty : ty = t
            · subst hty
              simp [Counts.get_set_same, Counts.zero_get]
            · simp [Counts.get_set_ne _ _ _ _ hty, hty, Counts.zero_get]
          · simp only [userCount,
              alGet_alPut_ne _ _ _ _ (fun he => huu he.symm),
              alGet_alPut_ne _ _ _ _ (fun he => huu he.symm)]
            simp [huu]
        · intro ty
          simp only [rmTotal]
          rw [alSum_alPut_present _ _ _ _ _ hget1,
            alSum_alPut_absent _ _ _ _ hu]
          by_cases hty : ty = t
          · subst hty
            simp [Counts.get_set_same, Counts.zero_get]
          · simp [Counts.get_set_ne _ _ _ _ hty, hty, Counts.zero_get]
    | none =>
      left
      simp only [rmAllocate, hct, hu, hget1, Option.getD_some,
        consAllocate, hm]
      refine ⟨trivial, ?_, ?_,
        alPut_keys_nodup _ _ _ (alPut_keys_nodup _ _ _ hnd)⟩
      · intro u ty
        by_cases huu : u = user
        · subst huu
          simp only [userCount, alGet_alPut_same, hu]
          by_cases hty : ty = t
          · subst hty
            simp [Counts.get_set_same, Counts.zero_get]
          · simp [Counts.get_set_ne _ _ _ _ hty, hty, Counts.zero_get]
        · simp only [userCount,
            alGet_alPut_ne _ _ _ _ (fun he => huu he.symm),
            alGet_alPut_ne _ _ _ _ (fun he => huu he.symm)]
          simp [huu]
      · intro ty
        simp only [rmTotal]
        rw [alSum_alPut_present _ _ _ _ _ hget1,
          alSum_alPut_absent _ _ _ _ hu]
        by_cases hty : ty = t
        · subst hty
          simp [Counts.get_set_same, Counts.zero_get]
        · simp [Counts.get_set_ne _ _ _ _ hty, hty, Counts.zero_get]

/-- Effect of `ResourceManager.deallocate` on a user holding at
least one resource of the type: it succeeds and decrements exactly
that user's count of that type (removing the consumer entirely when
it reaches all-zero, which leaves the observable count equally at
zero). -/
theorem rmDeallocate_effect (user : String) (t : RType) (rm : RM)
    (c : Counts) (hu : alGet user rm.consumers = some c)
    (hpos : 1 ≤ c.get t) (hnn : ∀ ty, 0 ≤ c.get ty)
    (hnd : (rm.consumers.map Prod.fst).Nodup) :
    (rmDeallocate user t rm).2 = none ∧
    (∀ u ty, userCount (rmDeallocate user t rm).1 u ty =
      userCount rm u ty - (if u = user ∧ ty = t then 1 else 0)) ∧
    (∀ ty, rmTotal (rmDeallocate user t rm).1 ty =
      rmTotal rm ty - (if ty = t then 1 else 0)) ∧
    (((rmDeallocate user t rm).1.consumers.map Prod.fst).Nodup) := by
  have hgt : (c.set t (c.get t - 1)).get t = c.get t - 1 :=
    Counts.get_set_same c t _
  have hnneg : ¬((c.set t (c.get t - 1)).get t < 0) := by
    rw [hgt]; omega
  by_cases hB : (c.set t (c.get t - 1)).hasAllocations = true
  · simp only [rmDeallocate, hu, if_neg hnneg, if_pos hB]
    refine ⟨trivial, ?_, ?_, alPut_keys_nodup _ _ _ hnd⟩
    · intro u ty
      by_cases huu : u = user
      · subst huu
        simp only [userCount, alGet_alPut_same, hu]
        by_cases hty : ty = t
        · subst hty
          simp [Counts.get_set_same]
        · simp [Counts.get_set_ne _ _ _ _ hty, hty]
      · simp only [userCount,
          alGet_alPut_ne _ _ _ _ (fun he => huu he.symm)]
        simp [huu]
    · intro ty
      simp only [rmTotal]
      rw [alSum_alPut_present _ _ _ _ _ hu]
      by_cases hty : ty = t
      · subst hty
        simp [Counts.get_set_same]
      · simp [Counts.get_set_ne _ _ _ _ hty, hty]
  · have hB2 : ¬(0 < (c.set t (c.get t - 1)).cli ∨
        0 < (c.set t (c.get t - 1)).sub ∨
        0 < (c.set t (c.get t - 1)).srv) := by
      intro hOr
      exact hB (by simp [Counts.hasAllocations, hOr])
    push_neg at hB2
    have hz : ∀ ty, (c.set t (c.get t - 1)).get ty ≤ 0 := by
      intro ty
      cases ty
      · exact hB2.1
      · exact hB2.2.1
      · exact hB2.2.2
    have hct1 : c.get t = 1 := by
      have := hz t
      rw [hgt] at this
      omega
    have hcz : ∀ ty, ty ≠ t → c.get ty = 0 := by
      intro ty hty
      have h1 := hz ty
      rw [Counts.get_set_ne _ _ _ _ hty] at h1
      have h2 := hnn ty
      omega
    simp only [rmDeallocate, hu, if_neg hnneg, if_neg hB]
    refine ⟨trivial, ?_, ?_, alDel_keys_nodup _ _ hnd⟩
    · intro u ty
      by_cases huu : u = user
      · subst huu
        simp only [userCount, alGet_alDel_same _ _ hnd, hu]
        by_cases hty : ty = t
        · subst hty
          rw [hct1]
          simp
        · rw [hcz ty hty]
          simp [hty]
      · simp only [userCount,
          alGet_alDel_ne _ _ _ (fun he => huu he.symm)]
        simp [huu]
    · intro ty
      simp only [rmTotal]
      rw [alSum_alDel _ _ _ _ hu]
      by_cases hty : ty = t
      · subst hty
        rw [hct1]
        simp
      · rw [hcz ty hty]
        simp [hty]

theorem rmDeallocate_caps (user : String) (t : RType) (rm : RM) :
    (rmDeallocate user t rm).1.maxUser = rm.maxUser ∧
    (rmDeallocate user t rm).1.maxTotal = rm.maxTotal := by
  cases hu : alGet user rm.consumers with
  | none => simp [rmDeallocate, hu]
  | some c =>
    simp only [rmDeallocate, hu]
    split_ifs <;> exact ⟨rfl, rfl⟩

theorem rmAllocate_caps (user : String) (t : RType) (rm : RM) :
    (rmAllocate user t rm).1.maxUser = rm.maxUser ∧
    (rmAllocate user t rm).1.maxTotal = rm.maxTotal := by
  cases hct : checkTotal rm t with
  | some e => simp [rmAllocate, hct]
  | none =>
    simp only [rmAllocate, hct]
    cases hu : alGet user rm.consumers <;>
      simp only [] <;>
      rcases hca : consAllocate (rm.maxUser.get t) _ t with e | c2 <;>
      exact ⟨rfl, rfl⟩

/-- C7: `transfer(from, to, kind)` deallocates from the old user
first and then allocates under the new one; on success exactly one
unit of the kind moves from `from` to `to` with the global total
unchanged, and if the allocation under the new owner fails with a
resource error, the old user's allocation is restored so that every
per-user count and every global count is exactly as before the
call. -/
theorem sd_c7_transfer_atomic (rm : RM) (fromU toU : String)
    (t : RType) (c : Counts)
    (hfrom : alGet fromU rm.consumers = some c)
    (hpos : 1 ≤ c.get t)
    (hnn : ∀ u cu, alGet u rm.consumers = some cu → ∀ ty, 0 ≤ cu.get ty)
    (hcaps : ∀ u cu, alGet u rm.consumers = some cu →
      ∀ ty m, rm.maxUser.get ty = some m → cu.get ty ≤ m)
    (htot : ∀ ty m, rm.maxTotal.get ty = some m → rmTotal rm ty ≤ m)
    (hnodup : (rm.consumers.map Prod.fst).Nodup)
    (hft : fromU ≠ toU) :
    (∀ rm2, rmTransfer fromU toU t rm = (rm2, none) →
      (∀ ty, rmTotal rm2 ty = rmTotal rm ty) ∧
      userCount rm2 fromU t = userCount rm fromU t - 1 ∧
      userCount rm2 toU t = userCount rm toU t + 1 ∧
      (∀ u ty, u ≠ fromU → u ≠ toU →
        userCount rm2 u ty = userCount rm u ty) ∧
      (∀ u ty, ty ≠ t → userCount rm2 u ty = userCount rm u ty)) ∧
    (∀ rm2 e, rmTransfer fromU toU t rm = (rm2, some e) →
      e = .resource ∧
      (∀ u ty, userCount rm2 u ty = userCount rm u ty) ∧
      (∀ ty, rmTotal rm2 ty = rmTotal rm ty)) := by
  obtain ⟨hd0, hdU, hdT, hdN⟩ :=
    rmDeallocate_effect fromU t rm c hfrom hpos
      (fun ty => hnn fromU c hfrom ty) hnodup
  have hdC := rmDeallocate_caps fromU t rm
  cases hP : rmDeallocate fromU t rm with
  | mk rm1 err1 =>
    rw [hP] at hd0 hdU hdT hdN hdC
    simp only at hd0 hdU hdT hdN hdC
    subst hd0
    have hct1 : checkTotal rm1 t = none := by
      simp only [checkTotal]
      cases hmt : rm1.maxTotal.get t with
      | none => rfl
      | some l =>
        show (if l = rmTotal rm1 t then some RErr.resource else none) = none
        rw [if_neg]
        intro he
        rw [hdT t, if_pos rfl] at he
        have := htot t l (by rw [← hdC.2]; exact hmt)
        omega
    have hdUfrom : userCount rm1 fromU t = userCount rm fromU t - 1 := by
      rw [hdU fromU t, if_pos ⟨rfl, rfl⟩]
    have hcfrom : userCount rm fromU t = c.get t := by
      simp [userCount, hfrom]
    rcases rmAllocate_effect toU t rm1 hct1 hdN with
      ⟨ha0, haU, haT, haN⟩ | ⟨ha0, hacap, haU, haT, haN⟩
    · -- allocation succeeds: the transfer succeeds
      cases hQ : rmAllocate toU t rm1 with
      | mk rm2 err2 =>
        rw [hQ] at ha0 haU haT haN
        simp only at ha0 haU haT haN
        subst ha0
        have hres : rmTransfer fromU toU t rm = (rm2, none) := by
          simp only [rmTransfer, hP, hQ]
        constructor
        · intro rm2x hx
          rw [hres] at hx
          have h1 : rm2 = rm2x := congrArg Prod.fst hx
          subst h1
          refine ⟨?_, ?_, ?_, ?_, ?_⟩
          · intro ty
            rw [haT ty, hdT ty]
            by_cases hty : ty = t <;> simp [hty]
          · rw [haU fromU t,
              if_neg (fun hand => hft hand.1), hdUfrom]
            omega
          · rw [haU toU t, if_pos ⟨rfl, rfl⟩, hdU toU t,
              if_neg (fun hand => hft hand.1.symm)]
            omega
          · intro u ty hu1 hu2
            rw [haU u ty, if_neg (fun hand => hu2 hand.1),
              hdU u ty, if_neg (fun hand => hu1 hand.1)]
            omega
          · intro u ty hty
            rw [haU u ty, if_neg (fun hand => hty hand.2),
              hdU u ty, if_neg (fun hand => hty hand.2)]
            omega
        · intro rm2x e hx
          rw [hres] at hx
          exact absurd (congrArg Prod.snd hx) (by simp)
    · -- allocation fails on the per-user cap: restore and re-raise
      cases hQ : rmAllocate toU t rm1 with
      | mk rm2 err2 =>
        rw [hQ] at ha0 haU haT haN
        simp only at ha0 haU haT haN
        subst ha0
        have hct2 : checkTotal rm2 t = none := by
          simp only [checkTotal]
          cases hmt : rm2.maxTotal.get t with
          | none => rfl
          | some l =>
            show (if l = rmTotal rm2 t then some RErr.resource else none) =
              none
            rw [if_neg]
            intro he
            rw [haT t, hdT t, if_pos rfl] at he
            have hmt2 : rm.maxTotal.get t = some l := by
              rw [← hdC.2, ← (rmAllocate_caps toU t rm1).2, hQ]
              exact hmt
            have := htot t l hmt2
            omega
        rcases rmAllocate_effect fromU t rm2 hct2 haN with
          ⟨hb0, hbU, hbT, hbN⟩ | ⟨hb0, hbcap, hbU, hbT, hbN⟩
        · cases hR : rmAllocate fromU t rm2 with
          | mk rm3 err3 =>
            rw [hR] at hb0 hbU hbT hbN
            simp only at hb0 hbU hbT hbN
            subst hb0
            have hres : rmTransfer fromU toU t rm = (rm3, some .resource) := by
              simp only [rmTransfer, hP, hQ, hR]
            constructor
            · intro rm2x hx
              rw [hres] at hx
              exact absurd (congrArg Prod.snd hx) (by simp)
            · intro rm2x e hx
              rw [hres] at hx
              have he : (.resource : RErr) = e := by
                have := congrArg Prod.snd hx
                simpa using this
              have hrm : rm3 = rm2x := congrArg Prod.fst hx
              subst hrm
              refine ⟨he.symm, ?_, ?_⟩
              · intro u ty
                rw [hbU u ty, haU u ty, hdU u ty]
                by_cases hu1 : u = fromU
                · subst hu1
                  by_cases hty : ty = t
                  · subst hty
                    rw [if_pos ⟨rfl, rfl⟩]
                    omega
                  · rw [if_neg (fun hand => hty hand.2)]
                    omega
                · rw [if_neg (fun hand => hu1 hand.1)]
                  omega
              · intro ty
                rw [hbT ty, haT ty, hdT ty]
                by_cases hty : ty = t <;> simp [hty]
        · -- the restore allocation cannot hit the cap
          exfalso
          obtain ⟨m2, hm2, hcap2⟩ := hbcap
          have hm2' : rm.maxUser.get t = some m2 := by
            rw [← hdC.1, ← (rmAllocate_caps toU t rm1).1, hQ]
            exact hm2
          have hle := hcaps fromU c hfrom t m2 hm2'
          rw [haU fromU t, hdUfrom, hcfrom] at hcap2
          omega

/-- Witness for C7: a transfer of one client resource from `alice`
to `bob` with no caps configured. -/
theorem sd_c7_witness :
    userCount (rmTransfer ("alice") ("bob") .client
      (RM.mk ⟨none, none, none⟩ ⟨none, none, none⟩
        [(("alice"), ⟨1, 0, 0⟩)])).1 ("bob") .client =
    userCount (RM.mk ⟨none, none, none⟩ ⟨none, none, none⟩
      [(("alice"), ⟨1, 0, 0⟩)]) ("bob") .client + 1 := by
  have h := sd_c7_transfer_atomic
    (RM.mk ⟨none, none, none⟩ ⟨none, none, none⟩ [(("alice"), ⟨1, 0, 0⟩)])
    ("alice") ("bob") .client ⟨1, 0, 0⟩ rfl (by decide)
    (by
      intro u cu hu ty
      simp only [alGet] at hu
      by_cases he : ("alice" : String) = u
      · rw [if_pos he, Option.some_inj] at hu
        subst hu
        cases ty <;> decide
      · rw [if_neg he] at hu
        exact absurd hu (by simp [alGet]))
    (by
      intro u cu hu ty m hm
      cases ty <;> exact absurd hm (by simp [Caps.get]))
    (by
      intro ty m hm
      cases ty <;> exact absurd hm (by simp [Caps.get]))
    (by simp)
    (by decide)
  exact (h.1 _ rfl).2.2.1

/-! ## Connection idle machinery (`sd.py` `Connection`,
`server.py` `Connection.check_idle` / `Server.client_idle`)

The model covers a handshaked connection with an idle limit
configured.  The `idle_cb` installed by the server is
`Server.client_idle`: a warning runs `Connection.check_idle` (for
protocol versions below 3 this marks the client active again; for
version 3 it sends a track query when a track transaction is open
and none is outstanding), and a timeout terminates the
connection. -/

inductive IdleSt where
  | active
  | tentative
  | timedOut
deriving DecidableEq, Repr

inductive TKind where
  | warning
  | timeout
deriving DecidableEq, Repr

/-- The idle-relevant state of one handshaked server connection:
negotiated protocol version, whether a TRACK transaction is open
(`is_tracked`), whether a track query is outstanding
(`track_query_ts is not None`), the `sd.Connection` idle state, the
armed idle timer (if any), and whether the server has terminated
the connection. -/
structure ConnIdle where
  protoVersion : Nat
  tracked : Bool
  querying : Bool
  idleState : IdleSt
  idleTimer : Option TKind
  terminated : Bool
deriving DecidableEq, Repr

/-- `sd.Connection.active()` (with an idle limit configured): does
nothing to a timed-out connection; otherwise resets the state to
`ACTIVE` and reinstalls the warning timer. -/
def connActive (c : ConnIdle) : ConnIdle :=
  if c.idleState ≠ .timedOut then
    { c with idleState := .active, idleTimer := some .warning }
  else c

/-- `server.Connection.check_idle` (the warning branch of
`Server.client_idle`). -/
def serverCheckIdle (c : ConnIdle) : ConnIdle :=
  if c.protoVersion < 3 then connActive c
  else if c.tracked ∧ ¬c.querying then { c with querying := true }
  else c

/-- `sd.Connection.issue_idle_warning`: go `TENTATIVE`, run the
callback (which may mark the connection active again), then install
the timeout timer. -/
def issueIdleWarning (c : ConnIdle) : ConnIdle :=
  let c2 := serverCheckIdle { c with idleState := .tentative }
  { c2 with idleTimer := some .timeout }

/-- `sd.Connection.issue_idle_timeout`: go `TIMED_OUT` and run the
callback, which terminates the connection (uninstalling the
timer). -/
def issueIdleTimeout (c : ConnIdle) : ConnIdle :=
  { c with
      idleState := .timedOut
      idleTimer := none
      terminated := true }

/-- `sd.Connection.idle_timer_fired`: clear the timer, then warn
(from `ACTIVE`) or time out (from `TENTATIVE`; any other state is an
assertion failure, which mutates nothing further). -/
def connFire (c : ConnIdle) : ConnIdle :=
  let c0 := { c with idleTimer := none }
  if c0.idleState = .active then issueIdleWarning c0
  else if c0.idleState = .tentative then issueIdleTimeout c0
  else c0

/-- `sd.Connection.check_idle` (reached from `Client.connect` on a
seemingly live connection). -/
def connCheckIdle (c : ConnIdle) : ConnIdle :=
  if c.idleState = .active then issueIdleWarning c else c

/-- One externally triggered event on a live connection: an idle
timer firing, any incoming request or inform
(`process_in_msg` → `sd.client_active`), a track reply, the opening
of a TRACK transaction, or the `check_idle` probe. -/
inductive ConnStep : ConnIdle → ConnIdle → Prop where
  | fire {c : ConnIdle} : c.terminated = false →
      c.idleTimer.isSome = true → ConnStep c (connFire c)
  | msg {c : ConnIdle} : c.terminated = false →
      ConnStep c (connActive c)
  | trackReply {c : ConnIdle} : c.terminated = false →
      c.querying = true →
      ConnStep c { connActive c with querying := false }
  | openTrack {c : ConnIdle} : c.terminated = false →
      c.tracked = false →
      ConnStep c { connActive c with tracked := true }
  | checkIdle {c : ConnIdle} : c.terminated = false →
      ConnStep c (connCheckIdle c)

/-- Reachability by connection events. -/
inductive ConnReach : ConnIdle → ConnIdle → Prop where
  | refl (c : ConnIdle) : ConnReach c c
  | step {a b c : ConnIdle} : ConnReach a b → ConnStep b c →
      ConnReach a c

/-- The initial idle state of a freshly handshaked connection
(`Connection.__init__` with an idle limit: `ACTIVE` plus a warning
timer; no TRACK transaction yet). -/
def connInit (pv : Nat) : ConnIdle :=
  ⟨pv, false, false, .active, some .warning, false⟩

/-- C3 counterexample: a handshaked protocol-version-3 connection
with no open TRACK transaction is terminated by idleness alone: the
warning timer fires (state becomes `TENTATIVE`, and the version-3
warning callback does nothing for an untracked connection), then
the timeout timer fires and the server terminates the
connection. -/
theorem sd_c3_counterexample :
    (connInit 3).tracked = false ∧
    ConnStep (connInit 3) (connFire (connInit 3)) ∧
    ConnStep (connFire (connInit 3)) (connFire (connFire (connInit 3))) ∧
    (connFire (connFire (connInit 3))).terminated = true :=
  ⟨rfl, .fire rfl rfl, .fire rfl rfl, rfl⟩

/-- C3 (amended): a handshaked connection speaking a protocol
version below 3 is never terminated for idleness: every idle
warning immediately marks the client active again
(`check_idle` → `sd.client_active`), so along any sequence of
connection events the connection stays `ACTIVE` and live.  (For
protocol version 3 an untracked connection is terminated after an
unanswered warning, see the counterexample.) -/
theorem sd_c3_v2_never_idle_terminated (pv : Nat) (hpv : pv < 3)
    (c : ConnIdle) (hreach : ConnReach (connInit pv) c) :
    c.terminated = false ∧ c.idleState = .active := by
  have hmain : c.terminated = false ∧ c.idleState = .active ∧
      c.protoVersion = pv := by
    induction hreach with
    | refl => exact ⟨rfl, rfl, rfl⟩
    | step hr hs ih =>
      obtain ⟨ht, hst, hp⟩ := ih
      rename_i a b
      cases hs with
      | fire h1 h2 =>
        refine ⟨?_, ?_, ?_⟩ <;>
          simp [connFire, hst, issueIdleWarning, serverCheckIdle, hp, hpv,
            connActive, ht]
      | msg h1 =>
        refine ⟨?_, ?_, ?_⟩ <;> simp [connActive, hst, ht, hp]
      | trackReply h1 h2 =>
        refine ⟨?_, ?_, ?_⟩ <;> simp [connActive, hst, ht, hp]
      | openTrack h1 h2 =>
        refine ⟨?_, ?_, ?_⟩ <;> simp [connActive, hst, ht, hp]
      | checkIdle h1 =>
        refine ⟨?_, ?_, ?_⟩ <;>
          simp [connCheckIdle, hst, issueIdleWarning, serverCheckIdle, hp,
            hpv, connActive, ht]
  exact ⟨hmain.1, hmain.2.1⟩

/-- Witness for the amended C3: after one warning-timer fire on a
version-2 connection, the connection is still live and active. -/
theorem sd_c3_witness :
    (connFire (connInit 2)).terminated = false ∧
    (connFire (connInit 2)).idleState = .active :=
  sd_c3_v2_never_idle_terminated 2 (by decide) (connFire (connInit 2))
    (.step (.refl (connInit 2)) (.fire rfl rfl))

/-- C10: `TIMED_OUT` is absorbing: no connection event leaves it,
and `active()` — which otherwise resets the idle state and
reinstalls the warning timer — returns a timed-out connection
completely unchanged (`Connection.active` checks
`idle_state != IdleState.TIMED_OUT` first). -/
theorem sd_c10_timed_out_absorbing (c c2 : ConnIdle)
    (hs : ConnStep c c2) (ht : c.idleState = .timedOut) :
    c2.idleState = .timedOut ∧ connActive c = c := by
  have hact : connActive c = c := by
    simp [connActive, ht]
  refine ⟨?_, hact⟩
  cases hs with
  | fire h1 h2 =>
    simp [connFire, ht]
  | msg h1 => rw [hact]; exact ht
  | trackReply h1 h2 =>
    show ({ connActive c with querying := false }).idleState = .timedOut
    rw [hact]
    exact ht
  | openTrack h1 h2 =>
    show ({ connActive c with tracked := true }).idleState = .timedOut
    rw [hact]
    exact ht
  | checkIdle h1 =>
    simp [connCheckIdle, ht]

/-- Witness for C10: an incoming message on a timed-out connection
leaves it timed out, and `active()` does not change it. -/
theorem sd_c10_witness :
    (connActive (ConnIdle.mk 3 false false .timedOut none false)).idleState =
      .timedOut ∧
    connActive (ConnIdle.mk 3 false false .timedOut none false) =
      ConnIdle.mk 3 false false .timedOut none false := by
  have h := sd_c10_timed_out_absorbing
    (ConnIdle.mk 3 false false .timedOut none false)
    (connActive (ConnIdle.mk 3 false false .timedOut none false))
    (.msg rfl) rfl
  exact ⟨by rw [h.2], h.2⟩

/-! ## Service discovery state (`sd.py` `ServiceDiscovery`, `Client`,
`DB`; `server.py` request handlers)

The model tracks the service database, the clients (with the set of
services held by each client's active connection), the orphan-timer
dict and the timer wheel.  Subscriptions are represented by the list
of service-change commits each operation performs: every commit runs
`service_changed`, which notifies matching subscriptions and then
`maintain_orphans`, so an operation emitting no commit emits no
subscription notification.  Resource accounting is verified
separately (C7) and elided here; times are naturals. -/

/-- One `Generation` of a `Service` (the `cur` fields). -/
structure SDService where
  generation : Int
  props : Props
  ttl : Nat
  orphanSince : Option Nat
  clientId : Nat
  userId : String
deriving DecidableEq, Repr

/-- `Service.orphan_timeout()`. -/
def SDService.orphanTimeout (svc : SDService) : Nat :=
  svc.orphanSince.getD 0 + svc.ttl

/-- A `Client` together with the service ids held by its active
connection (`active_connection.services`). -/
structure ClientSt where
  userId : String
  connected : Bool
  activeServices : List Nat
deriving DecidableEq, Repr

/-- The service-discovery server state. -/
structure SDState where
  now : Nat
  clients : List (Nat × ClientSt)
  services : List (Nat × SDService)
  orphanTimers : List (Nat × Timer)
  wheel : List Timer
  nextTimer : Nat
deriving DecidableEq, Repr

/-- The change kinds of `Service.commit`. -/
inductive ChangeKind where
  | added
  | modified
  | removed
deriving DecidableEq, Repr

/-- Errors raised out of `ServiceDiscovery` calls. -/
inductive SDErr where
  | permission
  | oldGeneration
  | sameGenerationButDifferent
  | notFound
deriving DecidableEq, Repr

/-- `ServiceDiscovery.add_orphan_timer`: schedule a timer at the
orphan timeout and record it in the `orphan_timers` dict. -/
def addOrphanTimer (sid : Nat) (exp : Nat) (s : SDState) : SDState :=
  { s with
      wheel := twAdd s.wheel (s.nextTimer, exp)
      orphanTimers := alPut sid (s.nextTimer, exp) s.orphanTimers
      nextTimer := s.nextTimer + 1 }

/-- `ServiceDiscovery.remove_orphan_timer`: a no-op when no timer is
recorded (the orphan removal may be caused by the timer itself
firing); otherwise drop the dict entry and remove the timer from
the wheel.  (`TimerManager.remove` would raise for a timer absent
from the wheel; the orphan-timer invariant proved below shows every
recorded timer is pending, so that branch is unreachable and the
`getD` default is dead code.) -/
def removeOrphanTimer (sid : Nat) (s : SDState) : SDState :=
  match alGet sid s.orphanTimers with
  | none => s
  | some tm =>
    { s with
        orphanTimers := alDel sid s.orphanTimers
        wheel := (twRemove s.wheel tm).getD s.wheel }

/-- `ServiceDiscovery.maintain_orphans`, with the previous and
current generations passed explicitly (`was_orphan`/`is_orphan`). -/
def maintainOrphans (change : ChangeKind) (sid : Nat)
    (prev cur : SDService) (s : SDState) : SDState :=
  match change with
  | .added =>
    if cur.orphanSince.isSome then addOrphanTimer sid cur.orphanTimeout s
    else s
  | .modified =>
    if prev.orphanSince.isSome ∧ ¬cur.orphanSince.isSome then
      removeOrphanTimer sid s
    else if ¬prev.orphanSince.isSome ∧ cur.orphanSince.isSome then
      addOrphanTimer sid cur.orphanTimeout s
    else if prev.orphanSince.isSome ∧ cur.orphanSince.isSome then
      if cur.orphanTimeout ≠ prev.orphanTimeout then
        addOrphanTimer sid cur.orphanTimeout (removeOrphanTimer sid s)
      else s
    else s
  | .removed =>
    if prev.orphanSince.isSome then removeOrphanTimer sid s else s

/-- Remove a service id from every connection's service set
(`Connection.remove_service` on whichever connection holds it). -/
def detachService (sid : Nat) (clients : List (Nat × ClientSt)) :
    List (Nat × ClientSt) :=
  clients.map (fun p =>
    (p.1, { p.2 with activeServices := p.2.activeServices.erase sid }))

/-- Add a service id to a client's active connection
(`Connection.add_service`). -/
def attachService (sid cid : Nat) (clients : List (Nat × ClientSt)) :
    List (Nat × ClientSt) :=
  clients.map (fun p =>
    if p.1 = cid then
      (p.1, { p.2 with activeServices := sid :: p.2.activeServices })
    else p)

/-- `Client.capture_service`: the service moves from the victim's
connection to the capturing client's active connection. -/
def captureMove (sid cid : Nat) (clients : List (Nat × ClientSt)) :
    List (Nat × ClientSt) :=
  attachService sid cid (detachService sid clients)

/-- `ServiceDiscovery.publish` / `Client.publish`: the result state,
the raised error (if any), and the emitted service-change commits. -/
def sdPublish (cid sid : Nat) (gen : Int) (ps : Props) (ttl : Nat)
    (s : SDState) : SDState × Option SDErr × List ChangeKind :=
  match alGet cid s.clients with
  | none => (s, some .notFound, [])
  | some cl =>
    if cl.connected = false then (s, some .notFound, [])
    else
      match alGet sid s.services with
      | some svc =>
        if cl.userId ≠ svc.userId then (s, some .permission, [])
        else if gen = svc.generation then
          if ¬(propsEq ps svc.props = true) ∨ ttl ≠ svc.ttl then
            (s, some .sameGenerationButDifferent, [])
          else if svc.clientId ≠ cid then
            let cur := { svc with orphanSince := none, clientId := cid }
            (maintainOrphans .modified sid svc cur
              { s with
                  services := alPut sid cur s.services
                  clients := captureMove sid cid s.clients },
             none, [.modified])
          else if svc.orphanSince.isSome then
            let cur := { svc with orphanSince := none }
            (maintainOrphans .modified sid svc cur
              { s with services := alPut sid cur s.services },
             none, [.modified])
          else (s, none, [])
        else if svc.generation < gen then
          let cur : SDService := ⟨gen, ps, ttl, none, cid, cl.userId⟩
          (maintainOrphans .modified sid svc cur
            { s with
                services := alPut sid cur s.services
                clients := if svc.clientId ≠ cid then
                    captureMove sid cid s.clients
                  else s.clients },
           none, [.modified])
        else (s, some .oldGeneration, [])
      | none =>
        let cur : SDService := ⟨gen, ps, ttl, none, cid, cl.userId⟩
        (maintainOrphans .added sid cur cur
          { s with
              services := alPut sid cur s.services
              clients := attachService sid cid s.clients },
         none, [.added])

/-- `ServiceDiscovery.unpublish` / `Client.unpublish`. -/
def sdUnpublish (cid sid : Nat) (s : SDState) :
    SDState × Option SDErr × List ChangeKind :=
  match alGet cid s.clients with
  | none => (s, some .notFound, [])
  | some cl =>
    if cl.connected = false then (s, some .notFound, [])
    else
      match alGet sid s.services with
      | none => (s, some .notFound, [])
      | some svc =>
        if cl.userId ≠ svc.userId then (s, some .permission, [])
        else
          let newOwner := svc.clientId ≠ cid
          let step1 :=
            if newOwner ∨ svc.orphanSince.isSome then
              let cur := { svc with orphanSince := none, clientId := cid }
              (maintainOrphans .modified sid svc cur
                { s with
                    services := alPut sid cur s.services
                    clients := if newOwner then captureMove sid cid s.clients
                      else s.clients },
               cur, [ChangeKind.modified])
            else (s, svc, [])
          let s2 := maintainOrphans .removed sid step1.2.1 step1.2.1
            { step1.1 with
                services := alDel sid step1.1.services
                clients := detachService sid step1.1.clients }
          (s2, none, step1.2.2 ++ [.removed])

/-- Orphan one service at disconnect time `t`
(the `for service in inactivated.get_services()` loop body). -/
def orphanOne (t : Nat) (s : SDState) (sid : Nat) : SDState :=
  match alGet sid s.services with
  | none => s
  | some svc =>
    let cur := { svc with orphanSince := some t }
    maintainOrphans .modified sid svc cur
      { s with services := alPut sid cur s.services }

/-- `ServiceDiscovery.client_disconnect` / `Client.disconnect`: mark
the client disconnected and orphan every service held by the active
connection, stamping the disconnect time. -/
def sdDisconnect (cid : Nat) (s : SDState) :
    SDState × Option SDErr × List ChangeKind :=
  match alGet cid s.clients with
  | none => (s, some .notFound, [])
  | some cl =>
    if cl.connected = false then (s, some .notFound, [])
    else
      let s0 := { s with
        clients := alPut cid
          { cl with connected := false, activeServices := [] } s.clients }
      (cl.activeServices.foldl (orphanOne s.now) s0, none,
       cl.activeServices.map (fun _ => ChangeKind.modified))

/-- `ServiceDiscovery.client_connect` / `Client.connect` (success
paths; a connect on an already-connected client or under a changed
user id raises). -/
def sdConnect (cid : Nat) (uid : String) (s : SDState) :
    SDState × Option SDErr :=
  match alGet cid s.clients with
  | none =>
    ({ s with clients := alPut cid ⟨uid, true, []⟩ s.clients }, none)
  | some cl =>
    if cl.connected then (s, some .notFound)
    else if cl.userId ≠ uid then (s, some .permission)
    else ({ s with
        clients := alPut cid { cl with connected := true } s.clients },
      none)

/-- An orphan timer fires: `TimerManager.process` pops the timer and
runs the handler, which is `ServiceDiscovery.orphan_timeout`:
delete the dict entry, then purge the orphan
(`Client.purge_orphan` → `remove_service`, whose `REMOVED` commit
finds no recorded timer left to remove). -/
def sdOrphanExpire (sid : Nat) (s : SDState) :
    SDState × List ChangeKind :=
  match alGet sid s.orphanTimers with
  | none => (s, [])
  | some tm =>
    let s0 := { s with
      wheel := s.wheel.erase tm
      orphanTimers := alDel sid s.orphanTimers }
    match alGet sid s0.services with
    | none => (s0, [])
    | some svc =>
      (maintainOrphans .removed sid svc svc
        { s0 with
            services := alDel sid s0.services
            clients := detachService sid s0.clients }, [.removed])

/-- One service-discovery event: the operations named by the
orphan-timer invariant claim, plus client connects and clock
advance. -/
inductive SDStep : SDState → SDState → Prop where
  | publish (cid sid : Nat) (gen : Int) (ps : Props) (ttl : Nat)
      {s : SDState} : SDStep s (sdPublish cid sid gen ps ttl s).1
  | unpublish (cid sid : Nat) {s : SDState} :
      SDStep s (sdUnpublish cid sid s).1
  | disconnect (cid : Nat) {s : SDState} :
      SDStep s (sdDisconnect cid s).1
  | connect (cid : Nat) (uid : String) {s : SDState} :
      SDStep s (sdConnect cid uid s).1
  | expire (sid : Nat) {s : SDState} (tm : Timer)
      (h : alGet sid s.orphanTimers = some tm)
      (hdue : tm.2 ≤ s.now) : SDStep s (sdOrphanExpire sid s).1
  | tick (n : Nat) {s : SDState} (h : s.now ≤ n) :
      SDStep s { s with now := n }

/-- Reachability from the empty server state. -/
def sdInit : SDState := ⟨0, [], [], [], [], 0⟩

inductive SDReach : SDState → Prop where
  | init : SDReach sdInit
  | step {a b : SDState} : SDReach a → SDStep a b → SDReach b

/-! ### The orphan-timer invariant -/

/-- Coherence of the timer wheel and the `orphan_timers` dict alone:
the wheel is sorted, all pending handles are below the allocation
counter, dict keys are unique, every recorded timer is pending
exactly once, and no two services share a timer object. -/
def TimerInv (s : SDState) : Prop :=
  TWSorted s.wheel ∧
  (∀ tm, tm ∈ s.wheel → tm.1 < s.nextTimer) ∧
  (s.orphanTimers.map Prod.fst).Nodup ∧
  (∀ sid tm, alGet sid s.orphanTimers = some tm →
    s.wheel.count tm = 1) ∧
  (∀ sid1 sid2 tm, alGet sid1 s.orphanTimers = some tm →
    alGet sid2 s.orphanTimers = some tm → sid1 = sid2)

/-- The service ↔ orphan-timer linkage: every orphaned service has a
recorded timer expiring at orphan-since + TTL, non-orphans have
none, and every recorded timer belongs to an existing orphaned
service. -/
def SvcLink (s : SDState) : Prop :=
  (s.services.map Prod.fst).Nodup ∧
  (∀ sid svc os, alGet sid s.services = some svc →
    svc.orphanSince = some os →
    ∃ tm, alGet sid s.orphanTimers = some tm ∧ tm.2 = os + svc.ttl) ∧
  (∀ sid svc, alGet sid s.services = some svc →
    svc.orphanSince = none → alGet sid s.orphanTimers = none) ∧
  (∀ sid tm, alGet sid s.orphanTimers = some tm →
    ∃ svc, alGet sid s.services = some svc ∧
      svc.orphanSince.isSome = true)

/-- The orphan-timer invariant of the claim. -/
def SDInv (s : SDState) : Prop := TimerInv s ∧ SvcLink s

theorem count_pos_mem (l : List Timer) (x : Timer)
    (h : l.count x = 1) : x ∈ l := by
  have : 0 < l.count x := by omega
  exact List.count_pos_iff.mp this

/-- Effect of `twAdd` on occurrence counts (the insertion point is
within bounds because the wheel is sorted). -/
theorem twAdd_count (l : List Timer) (tm x : Timer) (hs : TWSorted l) :
    (twAdd l tm).count x = l.count x + (if x = tm then 1 else 0) := by
  have hes : (l.map Timer.expTime).Sorted (· ≤ ·) :=
    List.Pairwise.map _ (fun a b h => h) hs
  obtain ⟨h1, h2, h3⟩ := allocIdx_spec (l.map Timer.expTime) tm.expTime hes
  have hilen : allocIdx (l.map Timer.expTime) tm.expTime ≤ l.length := by
    simpa using h3
  rw [twAdd, insertIdx_eq_take_cons_drop _ _ _ hilen]
  rw [List.count_append, List.count_cons]
  conv_rhs =>
    rw [← List.take_append_drop
      (allocIdx (l.map Timer.expTime) tm.expTime) l, List.count_append]
  by_cases he : x = tm
  · subst he
    simp only [beq_self_eq_true, eq_self_iff_true, if_true]
    omega
  · have he2 : (tm == x) = false :=
      beq_eq_false_iff_ne.mpr (fun h3 => he h3.symm)
    simp only [if_neg he, he2, Bool.false_eq_true, if_false]
    omega

theorem twAdd_mem (l : List Timer) (tm x : Timer) (hs : TWSorted l) :
    x ∈ twAdd l tm ↔ x ∈ l ∨ x = tm := by
  have h1 := twAdd_count l tm x hs
  constructor
  · intro hm
    have hc : 0 < (twAdd l tm).count x := List.count_pos_iff.mpr hm
    by_cases he : x = tm
    · exact Or.inr he
    · rw [h1, if_neg he] at hc
      exact Or.inl (List.count_pos_iff.mp (by omega))
  · intro hm
    have hc : 0 < (twAdd l tm).count x := by
      rw [h1]
      rcases hm with hm | hm
      · have := List.count_pos_iff.mpr hm
        omega
      · rw [if_pos hm]
        omega
    exact List.count_pos_iff.mp hc

theorem TWSorted_erase (l : List Timer) (tm : Timer) (hs : TWSorted l) :
    TWSorted (l.erase tm) :=
  List.Pairwise.sublist (List.erase_sublist tm l) hs

/-- `removeOrphanTimer` does not touch the service database, the
clients or the clock. -/
theorem removeOrphanTimer_fields (sid : Nat) (s : SDState) :
    (removeOrphanTimer sid s).services = s.services ∧
    (removeOrphanTimer sid s).clients = s.clients ∧
    (removeOrphanTimer sid s).now = s.now ∧
    (removeOrphanTimer sid s).nextTimer = s.nextTimer := by
  cases h : alGet sid s.orphanTimers <;> simp [removeOrphanTimer, h]

theorem addOrphanTimer_fields (sid exp : Nat) (s : SDState) :
    (addOrphanTimer sid exp s).services = s.services ∧
    (addOrphanTimer sid exp s).clients = s.clients ∧
    (addOrphanTimer sid exp s).now = s.now := by
  simp [addOrphanTimer]

/-- Removing a service's timer: the timer map loses exactly the
`sid` entry and the wheel loses exactly that timer. -/
theorem TimerInv_remove (sid : Nat) (s : SDState) (h : TimerInv s) :
    TimerInv (removeOrphanTimer sid s) ∧
    alGet sid (removeOrphanTimer sid s).orphanTimers = none ∧
    (∀ sid2, sid2 ≠ sid →
      alGet sid2 (removeOrphanTimer sid s).orphanTimers =
        alGet sid2 s.orphanTimers) := by
  obtain ⟨hsort, hfresh, hnd, hcount, hinj⟩ := h
  cases hx : alGet sid s.orphanTimers with
  | none =>
    constructor
    · simp only [removeOrphanTimer, hx]
      exact ⟨hsort, hfresh, hnd, hcount, hinj⟩
    · constructor
      · simp only [removeOrphanTimer, hx]
      · intro sid2 h2
        simp only [removeOrphanTimer, hx]
  | some tm0 =>
    have hc0 := hcount sid tm0 hx
    have hmem : tm0 ∈ s.wheel := count_pos_mem _ _ hc0
    have hrw : (twRemove s.wheel tm0).getD s.wheel = s.wheel.erase tm0 := by
      simp [twRemove, hmem]
    have hstate : removeOrphanTimer sid s =
        { s with
            orphanTimers := alDel sid s.orphanTimers
            wheel := s.wheel.erase tm0 } := by
      simp only [removeOrphanTimer, hx, hrw]
    rw [hstate]
    refine ⟨⟨TWSorted_erase _ _ hsort, ?_, alDel_keys_nodup _ _ hnd,
      ?_, ?_⟩, ?_, ?_⟩
    · intro tm hm
      exact hfresh tm (List.mem_of_mem_erase hm)
    · intro sid2 tm h2
      have hne : sid2 ≠ sid := by
        intro he
        rw [he, alGet_alDel_same _ _ hnd] at h2
        exact absurd h2 (by simp)
      rw [alGet_alDel_ne _ _ _ (fun he => hne he.symm)] at h2
      have hcnt := hcount sid2 tm h2
      have htne : tm ≠ tm0 := by
        intro he
        rw [he] at h2
        exact hne (hinj sid2 sid tm0 h2 hx)
      rw [List.count_erase_of_ne htne]
      exact hcnt
    · intro sid1 sid2 tm ha hb
      have hne1 : sid1 ≠ sid := by
        intro he
        rw [he, alGet_alDel_same _ _ hnd] at ha
        exact absurd ha (by simp)
      have hne2 : sid2 ≠ sid := by
        intro he
        rw [he, alGet_alDel_same _ _ hnd] at hb
        exact absurd hb (by simp)
      rw [alGet_alDel_ne _ _ _ (fun he => hne1 he.symm)] at ha
      rw [alGet_alDel_ne _ _ _ (fun he => hne2 he.symm)] at hb
      exact hinj sid1 sid2 tm ha hb
    · exact alGet_alDel_same _ _ hnd
    · intro sid2 h2
      exact alGet_alDel_ne _ _ _ (fun he => h2 he.symm)

/-- Adding a fresh timer for a service with no recorded timer. -/
theorem TimerInv_add (sid exp : Nat) (s : SDState) (h : TimerInv s)
    (hnone : alGet sid s.orphanTimers = none) :
    TimerInv (addOrphanTimer sid exp s) ∧
    alGet sid (addOrphanTimer sid exp s).orphanTimers =
      some (s.nextTimer, exp) ∧
    (∀ sid2, sid2 ≠ sid →
      alGet sid2 (addOrphanTimer sid exp s).orphanTimers =
        alGet sid2 s.orphanTimers) := by
  obtain ⟨hsort, hfresh, hnd, hcount, hinj⟩ := h
  have hnew : (s.nextTimer, exp) ∉ s.wheel := by
    intro hm
    exact absurd (hfresh _ hm) (by simp)
  refine ⟨⟨twAdd_sorted _ _ hsort, ?_, alPut_keys_nodup _ _ _ hnd,
    ?_, ?_⟩, ?_, ?_⟩
  · intro tm hm
    rcases (twAdd_mem s.wheel (s.nextTimer, exp) tm hsort).mp hm with
      hm2 | hm2
    · have := hfresh tm hm2
      simp only [addOrphanTimer]
      omega
    · rw [hm2]
      simp [addOrphanTimer]
  · intro sid2 tm h2
    simp only [addOrphanTimer] at h2 ⊢
    by_cases he : sid2 = sid
    · subst he
      rw [alGet_alPut_same, Option.some_inj] at h2
      rw [← h2, twAdd_count _ _ _ hsort, if_pos rfl,
        List.count_eq_zero.mpr hnew]
    · rw [alGet_alPut_ne _ _ _ _ (fun h3 => he h3.symm)] at h2
      have hcnt := hcount sid2 tm h2
      have hmem : tm ∈ s.wheel := count_pos_mem _ _ hcnt
      have htne : tm ≠ (s.nextTimer, exp) := by
        intro h3
        have := hfresh tm hmem
        rw [h3] at this
        simp at this
      rw [twAdd_count _ _ _ hsort, if_neg htne]
      omega
  · intro sid1 sid2 tm ha hb
    simp only [addOrphanTimer] at ha hb
    by_cases he1 : sid1 = sid
    · by_cases he2 : sid2 = sid
      · rw [he1, he2]
      · exfalso
        rw [he1, alGet_alPut_same, Option.some_inj] at ha
        rw [alGet_alPut_ne _ _ _ _ (fun h3 => he2 h3.symm)] at hb
        have hcnt := hcount sid2 tm hb
        have hmem : tm ∈ s.wheel := count_pos_mem _ _ hcnt
        have hlt := hfresh tm hmem
        rw [← ha] at hlt
        simp at hlt
    · by_cases he2 : sid2 = sid
      · exfalso
        rw [he2, alGet_alPut_same, Option.some_inj] at hb
        rw [alGet_alPut_ne _ _ _ _ (fun h3 => he1 h3.symm)] at ha
        have hcnt := hcount sid1 tm ha
        have hmem : tm ∈ s.wheel := count_pos_mem _ _ hcnt
        have hlt := hfresh tm hmem
        rw [← hb] at hlt
        simp at hlt
      · rw [alGet_alPut_ne _ _ _ _ (fun h3 => he1 h3.symm)] at ha
        rw [alGet_alPut_ne _ _ _ _ (fun h3 => he2 h3.symm)] at hb
        exact hinj sid1 sid2 tm ha hb
  · simp only [addOrphanTimer]
    exact alGet_alPut_same _ _ _
  · intro sid2 h2
    simp only [addOrphanTimer]
    exact alGet_alPut_ne _ _ _ _ (fun he => h2 he.symm)

/-- The service ↔ timer linkage for every service id other than the
one currently being edited. -/
def LinkAway (s : SDState) (sid : Nat) : Prop :=
  (s.services.map Prod.fst).Nodup ∧
  (∀ sid2 svc os, sid2 ≠ sid → alGet sid2 s.services = some svc →
    svc.orphanSince = some os →
    ∃ tm, alGet sid2 s.orphanTimers = some tm ∧ tm.2 = os + svc.ttl) ∧
  (∀ sid2 svc, sid2 ≠ sid → alGet sid2 s.services = some svc →
    svc.orphanSince = none → alGet sid2 s.orphanTimers = none) ∧
  (∀ sid2 tm, sid2 ≠ sid → alGet sid2 s.orphanTimers = some tm →
    ∃ svc, alGet sid2 s.services = some svc ∧
      svc.orphanSince.isSome = true)

theorem LinkAway_of_SDInv (s : SDState) (sid : Nat) (h : SDInv s) :
    LinkAway s sid := by
  obtain ⟨ht, hnd, horph, hnon, htm⟩ := h
  exact ⟨hnd, fun sid2 svc os h2 h3 h4 => horph sid2 svc os h3 h4,
    fun sid2 svc h2 h3 h4 => hnon sid2 svc h3 h4,
    fun sid2 tm h2 h3 => htm sid2 tm h3⟩

theorem LinkAway_put (s : SDState) (sid : Nat) (cur : SDService)
    (X : List (Nat × ClientSt)) (h : LinkAway s sid) :
    LinkAway { s with
      services := alPut sid cur s.services
      clients := X } sid := by
  obtain ⟨hnd, horph, hnon, htm⟩ := h
  refine ⟨alPut_keys_nodup _ _ _ hnd, ?_, ?_, ?_⟩
  · intro sid2 svc os h2 h3 h4
    have h3x : alGet sid2 (alPut sid cur s.services) = some svc := h3
    rw [alGet_alPut_ne _ _ _ _ (fun he => h2 he.symm)] at h3x
    exact horph sid2 svc os h2 h3x h4
  · intro sid2 svc h2 h3 h4
    have h3x : alGet sid2 (alPut sid cur s.services) = some svc := h3
    rw [alGet_alPut_ne _ _ _ _ (fun he => h2 he.symm)] at h3x
    exact hnon sid2 svc h2 h3x h4
  · intro sid2 tm h2 h3
    obtain ⟨svc, h4, h5⟩ := htm sid2 tm h2 h3
    refine ⟨svc, ?_, h5⟩
    show alGet sid2 (alPut sid cur s.services) = some svc
    rw [alGet_alPut_ne _ _ _ _ (fun he => h2 he.symm)]
    exact h4

theorem LinkAway_del (s : SDState) (sid : Nat)
    (X : List (Nat × ClientSt)) (h : LinkAway s sid) :
    LinkAway { s with
      services := alDel sid s.services
      clients := X } sid := by
  obtain ⟨hnd, horph, hnon, htm⟩ := h
  refine ⟨alDel_keys_nodup _ _ hnd, ?_, ?_, ?_⟩
  · intro sid2 svc os h2 h3 h4
    have h3x : alGet sid2 (alDel sid s.services) = some svc := h3
    rw [alGet_alDel_ne _ _ _ (fun he => h2 he.symm)] at h3x
    exact horph sid2 svc os h2 h3x h4
  · intro sid2 svc h2 h3 h4
    have h3x : alGet sid2 (alDel sid s.services) = some svc := h3
    rw [alGet_alDel_ne _ _ _ (fun he => h2 he.symm)] at h3x
    exact hnon sid2 svc h2 h3x h4
  · intro sid2 tm h2 h3
    obtain ⟨svc, h4, h5⟩ := htm sid2 tm h2 h3
    refine ⟨svc, ?_, h5⟩
    show alGet sid2 (alDel sid s.services) = some svc
    rw [alGet_alDel_ne _ _ _ (fun he => h2 he.symm)]
    exact h4

theorem LinkAway_removeTimer (s : SDState) (sid : Nat)
    (h : LinkAway s sid) : LinkAway (removeOrphanTimer sid s) sid := by
  obtain ⟨hnd, horph, hnon, htm⟩ := h
  obtain ⟨hsv, hcl, hnow, hnt⟩ := removeOrphanTimer_fields sid s
  have hget : ∀ sid2, sid2 ≠ sid →
      alGet sid2 (removeOrphanTimer sid s).orphanTimers =
        alGet sid2 s.orphanTimers := by
    intro sid2 h2
    cases hx : alGet sid s.orphanTimers with
    | none => simp [removeOrphanTimer, hx]
    | some tm0 =>
      simp only [removeOrphanTimer, hx]
      exact alGet_alDel_ne _ _ _ (fun he => h2 he.symm)
  refine ⟨hsv ▸ hnd, ?_, ?_, ?_⟩
  · intro sid2 svc os h2 h3 h4
    rw [hsv] at h3
    obtain ⟨tm, h5, h6⟩ := horph sid2 svc os h2 h3 h4
    exact ⟨tm, by rw [hget sid2 h2]; exact h5, h6⟩
  · intro sid2 svc h2 h3 h4
    rw [hsv] at h3
    rw [hget sid2 h2]
    exact hnon sid2 svc h2 h3 h4
  · intro sid2 tm h2 h3
    rw [hget sid2 h2] at h3
    obtain ⟨svc, h4, h5⟩ := htm sid2 tm h2 h3
    exact ⟨svc, by rw [hsv]; exact h4, h5⟩

theorem LinkAway_addTimer (s : SDState) (sid exp : Nat)
    (h : LinkAway s sid) : LinkAway (addOrphanTimer sid exp s) sid := by
  obtain ⟨hnd, horph, hnon, htm⟩ := h
  obtain ⟨hsv, hcl, hnow⟩ := addOrphanTimer_fields sid exp s
  have hget : ∀ sid2, sid2 ≠ sid →
      alGet sid2 (addOrphanTimer sid exp s).orphanTimers =
        alGet sid2 s.orphanTimers := by
    intro sid2 h2
    simp only [addOrphanTimer]
    exact alGet_alPut_ne _ _ _ _ (fun he => h2 he.symm)
  refine ⟨hsv ▸ hnd, ?_, ?_, ?_⟩
  · intro sid2 svc os h2 h3 h4
    rw [hsv] at h3
    obtain ⟨tm, h5, h6⟩ := horph sid2 svc os h2 h3 h4
    exact ⟨tm, by rw [hget sid2 h2]; exact h5, h6⟩
  · intro sid2 svc h2 h3 h4
    rw [hsv] at h3
    rw [hget sid2 h2]
    exact hnon sid2 svc h2 h3 h4
  · intro sid2 tm h2 h3
    rw [hget sid2 h2] at h3
    obtain ⟨svc, h4, h5⟩ := htm sid2 tm h2 h3
    exact ⟨svc, by rw [hsv]; exact h4, h5⟩

/-- Finisher: the edited service id holds no orphan and no timer. -/
theorem SDInv_finish_nonorphan (s : SDState) (sid : Nat)
    (ht : TimerInv s) (hl : LinkAway s sid)
    (hnone : alGet sid s.orphanTimers = none)
    (hno : ∀ svc os, alGet sid s.services = some svc →
      svc.orphanSince = some os → False) : SDInv s := by
  obtain ⟨hnd, horph, hnon, htm⟩ := hl
  refine ⟨ht, hnd, ?_, ?_, ?_⟩
  · intro sid2 svc os h3 h4
    by_cases h2 : sid2 = sid
    · subst h2
      exact absurd h4 (fun h4 => hno svc os h3 h4)
    · exact horph sid2 svc os h2 h3 h4
  · intro sid2 svc h3 h4
    by_cases h2 : sid2 = sid
    · subst h2
      exact hnone
    · exact hnon sid2 svc h2 h3 h4
  · intro sid2 tm h3
    by_cases h2 : sid2 = sid
    · subst h2
      rw [hnone] at h3
      exact absurd h3 (by simp)
    · exact htm sid2 tm h2 h3

/-- Finisher: the edited service id holds an orphan whose recorded
timer expires at orphan-since + TTL. -/
theorem SDInv_finish_orphan (s : SDState) (sid : Nat)
    (cur : SDService) (os : Nat) (tm : Timer)
    (ht : TimerInv s) (hl : LinkAway s sid)
    (hsome : alGet sid s.orphanTimers = some tm)
    (hcur : alGet sid s.services = some cur)
    (hos : cur.orphanSince = some os)
    (hexp : tm.2 = os + cur.ttl) : SDInv s := by
  obtain ⟨hnd, horph, hnon, htm⟩ := hl
  refine ⟨ht, hnd, ?_, ?_, ?_⟩
  · intro sid2 svc os2 h3 h4
    by_cases h2 : sid2 = sid
    · subst h2
      rw [hcur, Option.some_inj] at h3
      subst h3
      rw [hos, Option.some_inj] at h4
      subst h4
      exact ⟨tm, hsome, hexp⟩
    · exact horph sid2 svc os2 h2 h3 h4
  · intro sid2 svc h3 h4
    by_cases h2 : sid2 = sid
    · subst h2
      rw [hcur, Option.some_inj] at h3
      subst h3
      rw [hos] at h4
      exact absurd h4 (by simp)
    · exact hnon sid2 svc h2 h3 h4
  · intro sid2 tm2 h3
    by_cases h2 : sid2 = sid
    · subst h2
      exact ⟨cur, hcur, by rw [hos]; rfl⟩
    · exact htm sid2 tm2 h2 h3

theorem SDInv_clients (s : SDState) (X : List (Nat × ClientSt))
    (h : SDInv s) : SDInv { s with clients := X } := h

theorem SDInv_now (s : SDState) (n : Nat) (h : SDInv s) :
    SDInv { s with now := n } := h

/-- A `MODIFIED` commit on an existing service preserves the
orphan-timer invariant, whatever the new generation holds. -/
theorem SDInv_commit_modified (s : SDState) (sid : Nat)
    (svc cur : SDService) (X : List (Nat × ClientSt))
    (hinv : SDInv s) (hsvc : alGet sid s.services = some svc) :
    SDInv (maintainOrphans .modified sid svc cur
      { s with
          services := alPut sid cur s.services
          clients := X }) := by
  have ht1 : TimerInv { s with
      services := alPut sid cur s.services
      clients := X } := hinv.1
  have hl1 : LinkAway { s with
      services := alPut sid cur s.services
      clients := X } sid :=
    LinkAway_put s sid cur X (LinkAway_of_SDInv s sid hinv)
  have hcur : alGet sid ({ s with
      services := alPut sid cur s.services
      clients := X } : SDState).services = some cur :=
    alGet_alPut_same _ _ _
  simp only [maintainOrphans]
  by_cases hw : svc.orphanSince.isSome = true
  · by_cases hc : cur.orphanSince.isSome = true
    · rw [if_neg (by simp [hc]), if_neg (by simp [hw]),
        if_pos ⟨hw, hc⟩]
      obtain ⟨os0, hos0⟩ := Option.isSome_iff_exists.mp hw
      obtain ⟨os1, hos1⟩ := Option.isSome_iff_exists.mp hc
      obtain ⟨tm0, htm0, hexp0⟩ := hinv.2.2.1 sid svc os0 hsvc hos0
      by_cases hch : cur.orphanTimeout ≠ svc.orphanTimeout
      · rw [if_pos hch]
        have hsome1 : alGet sid ({ s with
            services := alPut sid cur s.services
            clients := X } : SDState).orphanTimers = some tm0 := htm0
        obtain ⟨ht2, hnone2, _⟩ := TimerInv_remove sid _ ht1
        have hl2 := LinkAway_removeTimer _ sid hl1
        obtain ⟨hsv2, _, _, _⟩ := removeOrphanTimer_fields sid
          { s with
              services := alPut sid cur s.services
              clients := X }
        have hcur2 : alGet sid (removeOrphanTimer sid
            { s with
                services := alPut sid cur s.services
                clients := X }).services = some cur := by
          rw [hsv2]
          exact hcur
        obtain ⟨ht3, hsome3, _⟩ := TimerInv_add sid cur.orphanTimeout _
          ht2 hnone2
        have hl3 := LinkAway_addTimer _ sid cur.orphanTimeout hl2
        obtain ⟨hsv3, _, _⟩ := addOrphanTimer_fields sid
          cur.orphanTimeout (removeOrphanTimer sid
            { s with
                services := alPut sid cur s.services
                clients := X })
        have hcur3 : alGet sid (addOrphanTimer sid cur.orphanTimeout
            (removeOrphanTimer sid
              { s with
                  services := alPut sid cur s.services
                  clients := X })).services = some cur := by
          rw [hsv3]
          exact hcur2
        refine SDInv_finish_orphan _ sid cur os1 _ ht3 hl3 hsome3
          hcur3 hos1 ?_
        simp [SDService.orphanTimeout, hos1]
      · rw [if_neg hch]
        have heq : cur.orphanTimeout = svc.orphanTimeout := by
          by_contra hne
          exact hch hne
        refine SDInv_finish_orphan _ sid cur os1 tm0 ht1 hl1 htm0
          hcur hos1 ?_
        rw [hexp0]
        have h1 : svc.orphanTimeout = os0 + svc.ttl := by
          simp [SDService.orphanTimeout, hos0]
        have h2 : cur.orphanTimeout = os1 + cur.ttl := by
          simp [SDService.orphanTimeout, hos1]
        rw [h1, h2] at heq
        omega
    · rw [if_pos ⟨hw, hc⟩]
      obtain ⟨os0, hos0⟩ := Option.isSome_iff_exists.mp hw
      obtain ⟨tm0, htm0, hexp0⟩ := hinv.2.2.1 sid svc os0 hsvc hos0
      obtain ⟨ht2, hnone2, _⟩ := TimerInv_remove sid _ ht1
      have hl2 := LinkAway_removeTimer _ sid hl1
      obtain ⟨hsv2, _, _, _⟩ := removeOrphanTimer_fields sid
        { s with
            services := alPut sid cur s.services
            clients := X }
      have hcur2 : alGet sid (removeOrphanTimer sid
          { s with
              services := alPut sid cur s.services
              clients := X }).services = some cur := by
        rw [hsv2]
        exact hcur
      refine SDInv_finish_nonorphan _ sid ht2 hl2 hnone2 ?_
      intro svc2 os2 h1 h2
      rw [hcur2, Option.some_inj] at h1
      subst h1
      rw [Option.not_isSome_iff_eq_none.mp hc] at h2
      exact absurd h2 (by simp)
  · by_cases hc : cur.orphanSince.isSome = true
    · rw [if_neg (by simp [hw]), if_pos ⟨by simp [hw], hc⟩]
      obtain ⟨os1, hos1⟩ := Option.isSome_iff_exists.mp hc
      have hnone : alGet sid s.orphanTimers = none :=
        hinv.2.2.2.1 sid svc hsvc (Option.not_isSome_iff_eq_none.mp hw)
      obtain ⟨ht2, hsome2, _⟩ := TimerInv_add sid cur.orphanTimeout _
        ht1 hnone
      have hl2 := LinkAway_addTimer _ sid cur.orphanTimeout hl1
      obtain ⟨hsv2, _, _⟩ := addOrphanTimer_fields sid cur.orphanTimeout
        { s with
            services := alPut sid cur s.services
            clients := X }
      have hcur2 : alGet sid (addOrphanTimer sid cur.orphanTimeout
          { s with
              services := alPut sid cur s.services
              clients := X }).services = some cur := by
        rw [hsv2]
        exact hcur
      refine SDInv_finish_orphan _ sid cur os1 _ ht2 hl2 hsome2
        hcur2 hos1 ?_
      simp [SDService.orphanTimeout, hos1]
    · rw [if_neg (by simp [hw]), if_neg (by simp [hw, hc]),
        if_neg (by simp [hw])]
      have hnone : alGet sid s.orphanTimers = none :=
        hinv.2.2.2.1 sid svc hsvc (Option.not_isSome_iff_eq_none.mp hw)
      refine SDInv_finish_nonorphan _ sid ht1 hl1 hnone ?_
      intro svc2 os2 h1 h2
      rw [hcur, Option.some_inj] at h1
      subst h1
      rw [Option.not_isSome_iff_eq_none.mp hc] at h2
      exact absurd h2 (by simp)

/-- An `ADDED` commit for a fresh, non-orphan service preserves the
invariant (new services are published with `orphan_since = None`). -/
theorem SDInv_commit_added (s : SDState) (sid : Nat) (cur : SDService)
    (X : List (Nat × ClientSt)) (hinv : SDInv s)
    (hno : alGet sid s.services = none)
    (hcurn : cur.orphanSince = none) :
    SDInv (maintainOrphans .added sid cur cur
      { s with
          services := alPut sid cur s.services
          clients := X }) := by
  have hnone : alGet sid s.orphanTimers = none := by
    cases hx : alGet sid s.orphanTimers with
    | none => rfl
    | some tm =>
      obtain ⟨svc, h1, _⟩ := hinv.2.2.2.2 sid tm hx
      rw [hno] at h1
      exact absurd h1 (by simp)
  simp only [maintainOrphans, hcurn, Option.isSome_none,
    Bool.false_eq_true, if_false]
  refine SDInv_finish_nonorphan _ sid hinv.1
    (LinkAway_put s sid cur X (LinkAway_of_SDInv s sid hinv)) hnone ?_
  intro svc2 os2 h1 h2
  have hcur : alGet sid (alPut sid cur s.services) = some cur :=
    alGet_alPut_same _ _ _
  have h1x : alGet sid (alPut sid cur s.services) = some svc2 := h1
  rw [hcur, Option.some_inj] at h1x
  subst h1x
  rw [hcurn] at h2
  exact absurd h2 (by simp)

/-- Deleting a service that holds no recorded timer preserves the
invariant. -/
theorem SDInv_del_service (s : SDState) (sid : Nat)
    (X : List (Nat × ClientSt)) (hinv : SDInv s)
    (hnone : alGet sid s.orphanTimers = none) :
    SDInv { s with
        services := alDel sid s.services
        clients := X } := by
  refine SDInv_finish_nonorphan _ sid hinv.1
    (LinkAway_del s sid X (LinkAway_of_SDInv s sid hinv)) hnone ?_
  intro svc2 os2 h1 h2
  have h1x : alGet sid (alDel sid s.services) = some svc2 := h1
  rw [alGet_alDel_same _ _ hinv.2.1] at h1x
  exact absurd h1x (by simp)

/-- The final state of an orphan-timer expiry: timer removed from
wheel and dict, service deleted. -/
theorem SDInv_expire_final (s : SDState) (sid : Nat)
    (X : List (Nat × ClientSt)) (hinv : SDInv s) (tm : Timer)
    (hsome : alGet sid s.orphanTimers = some tm) :
    SDInv { removeOrphanTimer sid s with
        services := alDel sid (removeOrphanTimer sid s).services
        clients := X } := by
  obtain ⟨ht2, hnone2, _⟩ := TimerInv_remove sid s hinv.1
  have hl2 := LinkAway_removeTimer s sid (LinkAway_of_SDInv s sid hinv)
  obtain ⟨hsv2, _, _, _⟩ := removeOrphanTimer_fields sid s
  have hinv2 : TimerInv (removeOrphanTimer sid s) ∧
      LinkAway (removeOrphanTimer sid s) sid := ⟨ht2, hl2⟩
  refine SDInv_finish_nonorphan _ sid hinv2.1
    (LinkAway_del _ sid X hinv2.2) hnone2 ?_
  intro svc2 os2 h1 h2
  have h1x : alGet sid
      (alDel sid (removeOrphanTimer sid s).services) = some svc2 := h1
  rw [alGet_alDel_same _ _ (by rw [hsv2]; exact hinv.2.1)] at h1x
  exact absurd h1x (by simp)

theorem maintainOrphans_fields (ch : ChangeKind) (sid : Nat)
    (p c : SDService) (s : SDState) :
    (maintainOrphans ch sid p c s).services = s.services ∧
    (maintainOrphans ch sid p c s).clients = s.clients := by
  cases ch with
  | added =>
    simp only [maintainOrphans]
    split_ifs
    · exact ⟨(addOrphanTimer_fields sid _ s).1,
        (addOrphanTimer_fields sid _ s).2.1⟩
    · exact ⟨rfl, rfl⟩
  | modified =>
    simp only [maintainOrphans]
    split_ifs
    · exact ⟨(removeOrphanTimer_fields sid s).1,
        (removeOrphanTimer_fields sid s).2.1⟩
    · exact ⟨(addOrphanTimer_fields sid _ s).1,
        (addOrphanTimer_fields sid _ s).2.1⟩
    · refine ⟨?_, ?_⟩
      · rw [(addOrphanTimer_fields sid _ _).1,
          (removeOrphanTimer_fields sid s).1]
      · rw [(addOrphanTimer_fields sid _ _).2.1,
          (removeOrphanTimer_fields sid s).2.1]
    · exact ⟨rfl, rfl⟩
    · exact ⟨rfl, rfl⟩
  | removed =>
    simp only [maintainOrphans]
    split_ifs
    · exact ⟨(removeOrphanTimer_fields sid s).1,
        (removeOrphanTimer_fields sid s).2.1⟩
    · exact ⟨rfl, rfl⟩

/-- Orphaning one service (the disconnect loop body) preserves the
invariant. -/
theorem SDInv_orphanOne (t : Nat) (s : SDState) (sid : Nat)
    (hinv : SDInv s) : SDInv (orphanOne t s sid) := by
  simp only [orphanOne]
  cases hx : alGet sid s.services with
  | none => exact hinv
  | some svc =>
    exact SDInv_commit_modified s sid svc _ s.clients hinv hx

theorem SDInv_foldl_orphan (t : Nat) (l : List Nat) (s : SDState)
    (hinv : SDInv s) : SDInv (l.foldl (orphanOne t) s) := by
  induction l generalizing s with
  | nil => exact hinv
  | cons x xs ih =>
    exact ih (orphanOne t s x) (SDInv_orphanOne t s x hinv)

/-- Every service-discovery event preserves the orphan-timer
invariant. -/
theorem SDStep_preserves {a b : SDState} (hs : SDStep a b)
    (hinv : SDInv a) : SDInv b := by
  cases hs with
  | publish cid sid gen ps ttl =>
    show SDInv (sdPublish cid sid gen ps ttl a).1
    cases hcl : alGet cid a.clients with
    | none =>
      simp only [sdPublish, hcl]
      exact hinv
    | some cl =>
      simp only [sdPublish, hcl]
      by_cases hconn : cl.connected = false
      · rw [if_pos hconn]
        exact hinv
      · rw [if_neg hconn]
        cases hsvc : alGet sid a.services with
        | some svc =>
          simp only [hsvc]
          by_cases huid : cl.userId ≠ svc.userId
          · rw [if_pos huid]
            exact hinv
          · rw [if_neg huid]
            by_cases hgen : gen = svc.generation
            · rw [if_pos hgen]
              by_cases hpt : ¬(propsEq ps svc.props = true) ∨ ttl ≠ svc.ttl
              · rw [if_pos hpt]
                exact hinv
              · rw [if_neg hpt]
                by_cases hc1 : svc.clientId ≠ cid
                · rw [if_pos hc1]
                  exact SDInv_commit_modified a sid svc _ _ hinv hsvc
                · rw [if_neg hc1]
                  by_cases ho : svc.orphanSince.isSome = true
                  · rw [if_pos ho]
                    exact SDInv_commit_modified a sid svc _ _ hinv hsvc
                  · rw [if_neg ho]
                    exact hinv
            · rw [if_neg hgen]
              by_cases hlt : svc.generation < gen
              · rw [if_pos hlt]
                exact SDInv_commit_modified a sid svc _ _ hinv hsvc
              · rw [if_neg hlt]
                exact hinv
        | none =>
          simp only [hsvc]
          exact SDInv_commit_added a sid _ _ hinv hsvc rfl
  | unpublish cid sid =>
    show SDInv (sdUnpublish cid sid a).1
    cases hcl : alGet cid a.clients with
    | none =>
      simp only [sdUnpublish, hcl]
      exact hinv
    | some cl =>
      simp only [sdUnpublish, hcl]
      by_cases hconn : cl.connected = false
      · rw [if_pos hconn]
        exact hinv
      · rw [if_neg hconn]
        cases hsvc : alGet sid a.services with
        | none =>
          simp only [hsvc]
          exact hinv
        | some svc =>
          simp only [hsvc]
          by_cases huid : cl.userId ≠ svc.userId
          · rw [if_pos huid]
            exact hinv
          · rw [if_neg huid]
            by_cases hmod : (svc.clientId ≠ cid) ∨
                svc.orphanSince.isSome = true
            · rw [if_pos hmod]
              generalize hMdef : maintainOrphans ChangeKind.modified sid svc
                  { svc with orphanSince := none, clientId := cid }
                  { a with
                      services := alPut sid
                        { svc with orphanSince := none, clientId := cid }
                        a.services
                      clients := if svc.clientId ≠ cid then
                          captureMove sid cid a.clients
                        else a.clients } = M
              have hM : SDInv M :=
                hMdef ▸ SDInv_commit_modified a sid svc _ _ hinv hsvc
              have hMs : M.services = alPut sid
                  { svc with orphanSince := none, clientId := cid }
                  a.services := by
                rw [← hMdef]
                exact (maintainOrphans_fields _ _ _ _ _).1
              have hMget : alGet sid M.services =
                  some { svc with orphanSince := none, clientId := cid } := by
                rw [hMs]
                exact alGet_alPut_same _ _ _
              have hMnone := hM.2.2.2.1 sid _ hMget rfl
              simp only [maintainOrphans, Option.isSome_none,
                Bool.false_eq_true, if_false]
              exact SDInv_del_service M sid _ hM hMnone
            · rw [if_neg hmod]
              push_neg at hmod
              have hO : svc.orphanSince = none := by
                cases hx : svc.orphanSince with
                | none => rfl
                | some v =>
                  have h2 := hmod.2
                  rw [hx] at h2
                  exact absurd rfl h2
              have hnone : alGet sid a.orphanTimers = none :=
                hinv.2.2.2.1 sid svc hsvc hO
              simp only [maintainOrphans, hO, Option.isSome_none,
                Bool.false_eq_true, if_false]
              exact SDInv_del_service a sid _ hinv hnone
  | disconnect cid =>
    show SDInv (sdDisconnect cid a).1
    cases hcl : alGet cid a.clients with
    | none =>
      simp only [sdDisconnect, hcl]
      exact hinv
    | some cl =>
      simp only [sdDisconnect, hcl]
      by_cases hconn : cl.connected = false
      · rw [if_pos hconn]
        exact hinv
      · rw [if_neg hconn]
        exact SDInv_foldl_orphan a.now cl.activeServices _
          (SDInv_clients a _ hinv)
  | connect cid uid =>
    show SDInv (sdConnect cid uid a).1
    cases hcl : alGet cid a.clients with
    | none =>
      simp only [sdConnect, hcl]
      exact SDInv_clients a _ hinv
    | some cl =>
      simp only [sdConnect, hcl]
      by_cases h1 : cl.connected = true
      · rw [if_pos h1]
        exact hinv
      · rw [if_neg h1]
        by_cases h2 : cl.userId ≠ uid
        · rw [if_pos h2]
          exact hinv
        · rw [if_neg h2]
          exact SDInv_clients a _ hinv
  | expire sid tm h hdue =>
    show SDInv (sdOrphanExpire sid a).1
    have hmem : tm ∈ a.wheel :=
      count_pos_mem _ _ (hinv.1.2.2.2.1 sid tm h)
    obtain ⟨svc, hsvc, hso⟩ := hinv.2.2.2.2 sid tm h
    have hrem : removeOrphanTimer sid a =
        { a with
            orphanTimers := alDel sid a.orphanTimers
            wheel := a.wheel.erase tm } := by
      simp only [removeOrphanTimer, h,
        show twRemove a.wheel tm = some (a.wheel.erase tm) from by
          simp [twRemove, hmem],
        Option.getD_some]
    simp only [sdOrphanExpire, h, hsvc]
    have hnone2 : alGet sid (alDel sid a.orphanTimers) = none :=
      alGet_alDel_same _ _ hinv.1.2.2.1
    simp only [maintainOrphans, hso, if_pos hso, removeOrphanTimer,
      hnone2]
    have hfin := SDInv_expire_final a sid (detachService sid a.clients)
      hinv tm h
    rw [hrem] at hfin
    exact hfin
  | tick n h =>
    exact SDInv_now a n hinv

theorem SDInv_init : SDInv sdInit := by
  refine ⟨⟨?_, ?_, ?_, ?_, ?_⟩, ?_, ?_, ?_, ?_⟩
  · exact List.Pairwise.nil
  · intro tm hm
    exact absurd hm (by simp [sdInit])
  · simp [sdInit]
  · intro sid tm h2
    exact absurd h2 (by simp [sdInit, alGet])
  · intro sid1 sid2 tm h1 h2
    exact absurd h1 (by simp [sdInit, alGet])
  · simp [sdInit]
  · intro sid svc os h1
    exact absurd h1 (by simp [sdInit, alGet])
  · intro sid svc h1
    exact absurd h1 (by simp [sdInit, alGet])
  · intro sid tm h1
    exact absurd h1 (by simp [sdInit, alGet])

/-- C2: in every reachable state, every orphaned service has exactly
one pending orphan timer, expiring at orphan-since + TTL, and no
non-orphan service has one. -/
theorem sd_c2_orphan_timers (s : SDState) (h : SDReach s) :
    (∀ sid svc os, alGet sid s.services = some svc →
      svc.orphanSince = some os →
      ∃ tm, alGet sid s.orphanTimers = some tm ∧
        s.wheel.count tm = 1 ∧ Timer.expTime tm = os + svc.ttl) ∧
    (∀ sid svc, alGet sid s.services = some svc →
      svc.orphanSince = none → alGet sid s.orphanTimers = none) := by
  have hinv : SDInv s := by
    induction h with
    | init => exact SDInv_init
    | step ha hs ih => exact SDStep_preserves hs ih
  constructor
  · intro sid svc os h1 h2
    obtain ⟨tm, h3, h4⟩ := hinv.2.2.1 sid svc os h1 h2
    exact ⟨tm, h3, (hinv.1.2.2.2.1 sid tm h3), h4⟩
  · exact hinv.2.2.2.1

def sdDemoState : SDState :=
  (sdDisconnect 1
    (sdPublish 1 10 1 [] 5 (sdConnect 1 ("u") sdInit).1).1).1

/-- Witness for C2 at a concretely reached state: client 1 connects,
publishes service 10 with TTL 5, and disconnects at time 0; the
orphaned service has exactly one timer, expiring at 0 + 5. -/
theorem sd_c2_witness :
    ∃ tm, alGet 10 sdDemoState.orphanTimers = some tm ∧
      sdDemoState.wheel.count tm = 1 ∧ Timer.expTime tm = 0 + 5 := by
  have hreach : SDReach sdDemoState :=
    SDReach.step (SDReach.step (SDReach.step SDReach.init
      (SDStep.connect 1 ("u"))) (SDStep.publish 1 10 1 [] 5))
      (SDStep.disconnect 1)
  have h := sd_c2_orphan_timers sdDemoState hreach
  have hsvc : alGet 10 sdDemoState.services =
      some ⟨1, [], 5, some 0, 1, ("u")⟩ := by rfl
  simpa using h.1 10 ⟨1, [], 5, some 0, 1, ("u")⟩ 0 hsvc rfl

/-! ### Publish failure handling (C1) and duplicate HELLO (C4) -/

/-- The protocol-level fail reasons used by the publish and hello
handlers. -/
inductive FailReason where
  | oldGeneration
  | sameGenerationButDifferent
  | permissionDenied
  | insufficientResources
deriving DecidableEq, Repr

/-- The `except` clauses of `Connection.publish_request`: which
`FAIL` reason each `sd` error is mapped to (a resource error from
the resource manager maps to insufficient-resources). -/
def publishFailReason : SDErr → Option FailReason
  | .permission => some .permissionDenied
  | .oldGeneration => some .oldGeneration
  | .sameGenerationButDifferent => some .sameGenerationButDifferent
  | .notFound => none

/-- C1: a republish with a generation strictly below the current
one fails OLD_GENERATION, and one with the current generation but
different properties or TTL fails SAME_GENERATION_BUT_DIFFERENT; in
both cases the entire state (services, orphan state, timers,
clients) is returned unchanged and no service-change commit is
emitted, so no subscription notification is sent. -/
theorem sd_c1_publish_failures (s : SDState) (cid sid : Nat)
    (cl : ClientSt) (svc : SDService) (gen : Int) (ps : Props)
    (ttl : Nat)
    (hcl : alGet cid s.clients = some cl)
    (hconn : cl.connected = true)
    (hsvc : alGet sid s.services = some svc)
    (huid : cl.userId = svc.userId) :
    (gen < svc.generation →
      sdPublish cid sid gen ps ttl s =
        (s, some .oldGeneration, []) ∧
      publishFailReason .oldGeneration = some .oldGeneration) ∧
    (gen = svc.generation →
      propsEq ps svc.props = false ∨ ttl ≠ svc.ttl →
      sdPublish cid sid gen ps ttl s =
        (s, some .sameGenerationButDifferent, []) ∧
      publishFailReason .sameGenerationButDifferent =
        some .sameGenerationButDifferent) := by
  have hconn2 : ¬(cl.connected = false) := by
    rw [hconn]
    simp
  have huid2 : ¬(cl.userId ≠ svc.userId) := by
    rw [huid]
    simp
  constructor
  · intro hlt
    refine ⟨?_, rfl⟩
    have hne : ¬(gen = svc.generation) := by omega
    have hnlt : ¬(svc.generation < gen) := by omega
    simp only [sdPublish, hcl, hsvc, if_neg hconn2, if_neg huid2,
      if_neg hne, if_neg hnlt]
  · intro heq hdiff
    refine ⟨?_, rfl⟩
    have hcond : ¬(propsEq ps svc.props = true) ∨ ttl ≠ svc.ttl := by
      rcases hdiff with h1 | h1
      · exact Or.inl (by rw [h1]; simp)
      · exact Or.inr h1
    simp only [sdPublish, hcl, hsvc, if_neg hconn2, if_neg huid2,
      if_pos heq, if_pos hcond]

/-- Witness for C1: republishing service 10 (current generation 1)
with generation 0 fails OLD_GENERATION and leaves the state
untouched. -/
theorem sd_c1_witness :
    sdPublish 1 10 0 [] 5
      (sdPublish 1 10 1 [] 5 (sdConnect 1 ("u") sdInit).1).1 =
    ((sdPublish 1 10 1 [] 5 (sdConnect 1 ("u") sdInit).1).1,
      some .oldGeneration, []) :=
  ((sd_c1_publish_failures
    (sdPublish 1 10 1 [] 5 (sdConnect 1 ("u") sdInit).1).1 1 10
    ⟨("u"), true, [10]⟩ ⟨1, [], 5, none, 1, ("u")⟩ 0 [] 5
    rfl rfl rfl rfl).1 (by decide)).1

/-- The handshake-relevant state of a server `Connection`
(`server.py`): the client id bound by the first HELLO, whether the
handshake completed, and the negotiated protocol version. -/
structure HelloConn where
  clientId : Option Nat
  handshaked : Bool
  protoVersion : Nat
deriving DecidableEq, Repr

/-- The response of `hello_request` as far as modelled: a `COMPLETE`
with the negotiated version, an `AttributeError` escaping the
handler (no response is sent; `Connection.activate` catches only
`xcm.error` and `proto.Error`, so the exception propagates and the
daemon exits), or continuation into the version-negotiation path
(first HELLO on a connection). -/
inductive HelloResp where
  | completeResp (v : Nat)
  | attrError
  | proceed
deriving DecidableEq, Repr

/-- The guard chain at the top of `Connection.hello_request`: bind
the client id on first contact; on a changed client id the handler
evaluates `proto.FAIL_PERMISSION_DENIED` — an attribute `proto.py`
never defines (it defines `FAIL_REASON_PERMISSION_DENIED`) — so the
branch raises `AttributeError` before any `FAIL` is built, leaving
the connection state unchanged; a duplicate HELLO on a handshaked
connection with the same client id is answered with a `COMPLETE`
carrying the negotiated version.  The `proceed` result stands for
the rest of the handler (version negotiation and
`client_connect`). -/
def helloRequest (conn : HelloConn) (cid : Nat) :
    HelloConn × HelloResp :=
  match conn.clientId with
  | none => ({ conn with clientId := some cid }, .proceed)
  | some c0 =>
    if c0 ≠ cid then (conn, .attrError)
    else if conn.handshaked then (conn, .completeResp conn.protoVersion)
    else (conn, .proceed)

/-- C4 (code bug): on a handshaked connection, a duplicate HELLO
with the same client id is answered idempotently with a `COMPLETE`
carrying the already-negotiated protocol version and changes
nothing; but a HELLO with a different client id does not produce the
claimed FAIL/permission-denied response: the handler raises
`AttributeError` (the undefined `proto.FAIL_PERMISSION_DENIED`),
sending no response at all, though the connection state is indeed
left unchanged. -/
theorem server_c4_hello_attribute_error (conn : HelloConn)
    (c0 cid : Nat) (hid : conn.clientId = some c0)
    (hhs : conn.handshaked = true) :
    (cid = c0 →
      helloRequest conn cid = (conn, .completeResp conn.protoVersion)) ∧
    (cid ≠ c0 →
      helloRequest conn cid = (conn, .attrError) ∧
      ∀ v, (helloRequest conn cid).2 ≠ .completeResp v) := by
  constructor
  · intro he
    subst he
    simp only [helloRequest, hid]
    rw [if_neg (by simp), if_pos hhs]
  · intro hne
    have hres : helloRequest conn cid = (conn, .attrError) := by
      simp only [helloRequest, hid]
      rw [if_pos (fun he => hne he.symm)]
    refine ⟨hres, ?_⟩
    intro v
    rw [hres]
    simp

/-- Witness for C4 at a concrete handshaked connection. -/
theorem server_c4_bug_witness :
    helloRequest (HelloConn.mk (some 7) true 2) 7 =
      (HelloConn.mk (some 7) true 2, .completeResp 2) ∧
    helloRequest (HelloConn.mk (some 7) true 2) 8 =
      (HelloConn.mk (some 7) true 2, .attrError) :=
  ⟨(server_c4_hello_attribute_error (HelloConn.mk (some 7) true 2) 7 7
      rfl rfl).1 rfl,
   ((server_c4_hello_attribute_error (HelloConn.mk (some 7) true 2) 7 8
      rfl rfl).2 (by decide)).1⟩
